import Mathlib

/-!
Verification of the limitador in-memory rate limiting core.

The data model and the operations of the in-memory counter store are embedded
shallowly: machine `u64` values are modelled as `Nat` (the claims under study
never reach the wrap-around region; the one place where `u64` overflow is
semantically load-bearing, the unchecked subtraction in `get_counters`, is
modelled explicitly as a panic via `Option`), panics are modelled as `none`,
and the sequential semantics of the lock- and atomics-based code is obtained
by threading the state and the clock explicitly.

The files `limit.rs`, `counter.rs` and `atomic_expiring_value.rs` of the
repository are not available; the definitions embedded from them are marked
`Modelled from the spec:` and follow the specification's data-model sections.
Everything else is translated from `storage/mod.rs`, `storage/in_memory.rs`
and `storage/concurrent/counter.rs`.
-/

namespace Limitador

/-- Nanoseconds per second: windows are stored in whole seconds while expiry
instants are nanoseconds since the epoch. -/
def nsPerSec : Nat := 1000000000

/-- Subtraction on `u64` as the source uses it: `checked_sub` returns `none`
on underflow, and the unchecked `-` of `to_counters`/`get_counters` is a
program error (panic) on underflow, so both are modelled by this function. -/
def checkedSub (a b : Nat) : Option Nat :=
  if b ≤ a then some (a - b) else none

/-- First-match lookup in an association list; models `BTreeMap::get`,
`HashMap::get` and the qualified-counter cache lookup. -/
def getA {κ β : Type} [DecidableEq κ] (k : κ) : List (κ × β) → Option β
  | [] => none
  | (k0, v) :: rest => if k0 = k then some v else getA k rest

/-- Insert-or-replace in an association list; models map insertion. -/
def setA {κ β : Type} [DecidableEq κ] (k : κ) (v : β) : List (κ × β) → List (κ × β)
  | [] => [(k, v)]
  | (k0, v0) :: rest => if k0 = k then (k, v) :: rest else (k0, v0) :: setA k v rest

/-- Modelled from the spec: `limit.rs` is not under `src/`. Section 3 fixes a
condition as a triple (variable, operator, literal) with operator in
`==` / `!=`. -/
inductive CondOp where
  | eq
  | ne
deriving DecidableEq

/-- Modelled from the spec: a single predicate of a limit (section 3). -/
structure Condition where
  var_name : String
  predicate : CondOp
  operand : String
deriving DecidableEq

/-- Modelled from the spec: `limit.rs` is not under `src/`. Section 3 gives the
`Limit` record: a namespace, a maximum count, a window length in seconds, the
conditions, the variable names and the optional `id` and `name`. `namespace`
is a Lean keyword, hence the field name `ns`. The `conditions` and `variables`
collections are ordered sets (`BTreeSet`); they are carried here as their
canonical element lists. -/
structure Limit where
  ns : String
  max_value : Nat
  seconds : Nat
  conditions : List Condition
  vars : List String
  id : Option String
  name : Option String
deriving DecidableEq

/-- Modelled from the spec: equality of limits is structural on the functional
identity, namespace, window, conditions and variables, except that when `id`
is set it is the identity (sections 3 and 4.F; `max_value` and `name` are not
part of limit equality, as `update_limit` finds an "equal" limit whose
`max_value` or `name` differs). -/
def limitEq (a b : Limit) : Bool :=
  match a.id, b.id with
  | some x, some y => decide (x = y)
  | none, none =>
    a.ns = b.ns && a.seconds = b.seconds &&
      decide (a.conditions = b.conditions) && decide (a.vars = b.vars)
  | _, _ => false

/-- The full functional identity of an anonymous limit (`LimitKey` in
`storage/mod.rs`). -/
structure LimitKey where
  ns : String
  window : Nat
  conditions : List Condition
  vars : List String
deriving DecidableEq

def LimitKey.ofLimit (l : Limit) : LimitKey :=
  ⟨l.ns, l.seconds, l.conditions, l.vars⟩

def LimitKey.applies_to (k : LimitKey) (l : Limit) : Bool :=
  l.ns = k.ns && l.seconds = k.window &&
    decide (l.conditions = k.conditions) && decide (l.vars = k.vars)

/-- `CounterValueSetKey` from `storage/mod.rs`: identity key when the limit has
an id, the full anonymous tuple otherwise. -/
inductive CounterValueSetKey where
  | Identity (id : String)
  | Anonymous (key : LimitKey)
deriving DecidableEq

def CounterValueSetKey.ofLimit (l : Limit) : CounterValueSetKey :=
  match l.id with
  | some id => .Identity id
  | none => .Anonymous (LimitKey.ofLimit l)

def CounterValueSetKey.applies_to (k : CounterValueSetKey) (l : Limit) : Bool :=
  match l.id with
  | none =>
    match k with
    | .Anonymous key => key.applies_to l
    | _ => false
  | some id =>
    match k with
    | .Identity ourId => id = ourId
    | _ => false

/-- Modelled from the spec: `counter.rs` is not under `src/`. Section 3 defines
a counter as a (limit, bindings) pair; `remaining` and `expires_in` are the
fields `check_and_update` and `get_counters` write back for the caller. -/
structure Counter where
  limit : Limit
  set_variables : List (String × String)
  remaining : Option Nat
  expires_in : Option Nat
deriving DecidableEq

/-- Modelled from the spec: a counter with no write-back fields set. -/
def Counter.of (l : Limit) (vars : List (String × String)) : Counter :=
  ⟨l, vars, none, none⟩

def Counter.max_value (c : Counter) : Nat := c.limit.max_value

/-- Modelled from the spec: the counter inherits the limit's window. -/
def Counter.window (c : Counter) : Nat := c.limit.seconds

/-- Modelled from the spec: a counter of a limit with a non-empty variable list
is qualified (section 3). -/
def Counter.is_qualified (c : Counter) : Bool := !c.limit.vars.isEmpty

def Counter.with_value (l : Limit) (remaining ttl : Nat)
    (vars : List (String × String)) : Counter :=
  ⟨l, vars, some remaining, some ttl⟩

/-- `QualifiedCounterValueSetKey` from `storage/mod.rs`: the limit key plus the
counter's variable bindings (a `BTreeMap`, carried as its ordered entry
list). -/
structure QualifiedCounterValueSetKey where
  limit_key : CounterValueSetKey
  qualifiers : List (String × String)
deriving DecidableEq

def QualifiedCounterValueSetKey.ofCounter (c : Counter) : QualifiedCounterValueSetKey :=
  ⟨CounterValueSetKey.ofLimit c.limit, c.set_variables⟩

/-- Modelled from the spec: `atomic_expiring_value.rs` is not under `src/`.
Section 4.A fixes the state, a 64-bit count and a 64-bit expiry in
nanoseconds, and the operations `value_at`, `ttl` and `update`. The
sequential semantics of the atomic operations is modelled with the clock
threaded explicitly. -/
structure AtomicExpiringValue where
  value : Nat
  expiry_ns : Nat
deriving DecidableEq

instance : Inhabited AtomicExpiringValue := ⟨⟨0, 0⟩⟩

/-- Modelled from the spec: `value_at(now)` is the count while unexpired and
`0` from the expiry on. -/
def AtomicExpiringValue.value_at (s : AtomicExpiringValue) (now : Nat) : Nat :=
  if now < s.expiry_ns then s.value else 0

/-- Modelled from the spec: `ttl(now)` is `max(expiry - now, 0)`, which is
truncated subtraction on `Nat`. -/
def AtomicExpiringValue.ttl (s : AtomicExpiringValue) (now : Nat) : Nat :=
  s.expiry_ns - now

/-- Modelled from the spec: `update(delta, window, now)` resets an expired
value to `(delta, now + window)` and otherwise accumulates under the unchanged
expiry; it returns the new count. -/
def AtomicExpiringValue.update (s : AtomicExpiringValue) (delta window now : Nat) :
    Nat × AtomicExpiringValue :=
  if s.expiry_ns ≤ now then (delta, ⟨delta, now + window * nsPerSec⟩)
  else (s.value + delta, ⟨s.value + delta, s.expiry_ns⟩)

/-- `CounterValue` from `storage/mod.rs`: one windowed accumulator. -/
structure CounterValue where
  seconds : Nat
  value : AtomicExpiringValue
deriving DecidableEq

def CounterValue.from_secs (w : Nat) : CounterValue := ⟨w, default⟩

/-- `CounterValueSet` from `storage/mod.rs`. -/
structure CounterValueSet where
  values : List CounterValue
deriving DecidableEq

instance : Inhabited CounterValueSet := ⟨⟨[]⟩⟩

def CounterValueSet.new (windows : List Nat) : CounterValueSet :=
  ⟨windows.map CounterValue.from_secs⟩

/-- The early-return scan of `CounterValueSet::add_window`: `true` exactly when
the source loop returns before pushing, that is when an entry with an equal
window is met before the first greater one. -/
def windowPresent (w : Nat) : List CounterValue → Bool
  | [] => false
  | v :: rest =>
    if v.seconds < w then windowPresent w rest
    else decide (v.seconds = w)

/-- `CounterValueSet::add_window`: return if the window is already present,
otherwise push a fresh zero value and re-sort (`sort_by` is a stable sort,
modelled by insertion sort). -/
def CounterValueSet.add_window (s : CounterValueSet) (w : Nat) : CounterValueSet :=
  if windowPresent w s.values then s
  else ⟨List.insertionSort (fun a b => a.seconds ≤ b.seconds) (s.values ++ [⟨w, default⟩])⟩

/-- The scan of `CounterValueSet::value`: skip smaller windows, read the value
at an equal one, give `0` past the first greater one or at the end. -/
def valueScan (w now : Nat) : List CounterValue → Nat
  | [] => 0
  | v :: rest =>
    if v.seconds < w then valueScan w now rest
    else if v.seconds = w then v.value.value_at now
    else 0

def CounterValueSet.value (s : CounterValueSet) (w now : Nat) : Nat :=
  valueScan w now s.values

/-- The scan of `CounterValueSet::expiring_value_of`. -/
def evScan (w : Nat) : List CounterValue → Option AtomicExpiringValue
  | [] => none
  | v :: rest =>
    if v.seconds < w then evScan w rest
    else if v.seconds = w then some v.value
    else none

def CounterValueSet.expiring_value_of (s : CounterValueSet) (w : Nat) :
    Option AtomicExpiringValue :=
  evScan w s.values

/-- The scan of `CounterValueSet::update`: `none` is the `Err(())` of the
source (no slot registered for the window). -/
def updateScan (w delta now : Nat) : List CounterValue → Option (Nat × List CounterValue)
  | [] => none
  | v :: rest =>
    if v.seconds < w then (updateScan w delta now rest).map (fun p => (p.1, v :: p.2))
    else if v.seconds = w then
      let r := v.value.update delta w now
      some (r.1, { v with value := r.2 } :: rest)
    else none

def CounterValueSet.update (s : CounterValueSet) (w delta now : Nat) :
    Option (Nat × CounterValueSet) :=
  (updateScan w delta now s.values).map (fun p => (p.1, ⟨p.2⟩))

/-- The body of `CounterValueSet::to_counters`, with the unchecked `u64`
subtraction `limit.max_value() - v.value()` modelled as a panic (`none`) on
underflow. -/
def toCountersScan (l : Limit) (now : Nat) : List CounterValue → Option (List Counter)
  | [] => some []
  | v :: rest =>
    match checkedSub l.max_value (v.value.value_at now) with
    | none => none
    | some rem =>
      (toCountersScan l now rest).map
        (fun cs => Counter.with_value l rem (v.value.ttl now) [] :: cs)

def CounterValueSet.to_counters (s : CounterValueSet) (l : Limit) (now : Nat) :
    Option (List Counter) :=
  toCountersScan l now s.values

/-- `ConcurrentCounter` from `storage/concurrent/counter.rs`. -/
structure ConcurrentCounter where
  value : Nat
  expires_at : Nat
  duration : Nat
deriving DecidableEq

/-- Sequential semantics of `ConcurrentCounter::next_at`: with no concurrent
interference the `compare_exchange` on the expiry succeeds, so a counter whose
expiry has been reached is reset to `delta` under a fresh expiry and the pair
(new count, previous expiry) is returned; otherwise `fetch_add` accumulates
under the unchanged expiry and the new count is returned. -/
def ConcurrentCounter.next_at (c : ConcurrentCounter) (t delta : Nat) :
    (Nat × Nat) × ConcurrentCounter :=
  if c.expires_at ≤ t then
    ((delta, c.expires_at), ⟨delta, t + c.duration, c.duration⟩)
  else
    ((c.value + delta, c.expires_at), ⟨c.value + delta, c.expires_at, c.duration⟩)

/-- Sequential semantics of `ConcurrentCounter::return_to`: the reversal only
succeeds when the epoch (`expires_at`) still equals `t` and the count is
strictly greater than `delta`, in which case the `compare_exchange` subtracts
`delta`; in every other case nothing changes. -/
def ConcurrentCounter.return_to (c : ConcurrentCounter) (t delta : Nat) :
    Bool × ConcurrentCounter :=
  if t = c.expires_at then
    if delta < c.value then (true, ⟨c.value - delta, c.expires_at, c.duration⟩)
    else (false, c)
  else (false, c)

/-- `Authorization` from `storage/mod.rs`. -/
inductive Authorization where
  | Ok
  | Limited (name : Option String)
deriving DecidableEq

/-- `InMemoryStorage` from `storage/in_memory.rs`. The `BTreeMap`, the moka
cache and the `HashMap` are all modelled as association lists; the cache's
capacity bound and eviction are timing-dependent behaviour outside the
sequential model (no claim under study concerns eviction). -/
structure InMemoryStorage where
  counters : List (CounterValueSetKey × CounterValueSet)
  qualified_counters : List (QualifiedCounterValueSetKey × CounterValueSet)
  limit_windows : List (CounterValueSetKey × List Nat)
deriving DecidableEq

instance : Inhabited InMemoryStorage := ⟨⟨[], [], []⟩⟩

/-- `InMemoryStorage::is_within_limits`. The store is returned unchanged: the
operation only reads (a moka `get` refreshes recency metadata, which has no
sequential effect). -/
def InMemoryStorage.is_within_limits (s : InMemoryStorage) (c : Counter)
    (delta now : Nat) : Bool × InMemoryStorage :=
  let value :=
    if c.is_qualified then
      ((getA (QualifiedCounterValueSetKey.ofCounter c) s.qualified_counters).map
        (fun cvs => cvs.value c.window now)).getD 0
    else
      ((getA (CounterValueSetKey.ofLimit c.limit) s.counters).map
        (fun cvs => cvs.value c.limit.seconds now)).getD 0
  (decide (value + delta ≤ c.max_value), s)

/-- `Vec::dedup`: removes consecutive duplicates only. -/
def rustDedup : List Nat → List Nat
  | [] => []
  | [a] => [a]
  | a :: b :: rest => if a = b then rustDedup (b :: rest) else a :: rustDedup (b :: rest)

/-- `InMemoryStorage::add_counter`: a simple limit gets (or extends) its
always-resident `CounterValueSet`; a qualified limit records its window in
`limit_windows` by push, `dedup`, `sort` — in exactly that source order. -/
def InMemoryStorage.add_counter (s : InMemoryStorage) (l : Limit) : InMemoryStorage :=
  if l.vars.isEmpty then
    let key := CounterValueSetKey.ofLimit l
    let entry := ((getA key s.counters).getD default).add_window l.seconds
    { s with counters := setA key entry s.counters }
  else
    let key := CounterValueSetKey.ofLimit l
    let windows := (getA key s.limit_windows).getD []
    let windows := List.insertionSort (· ≤ ·) (rustDedup (windows ++ [l.seconds]))
    { s with limit_windows := setA key windows s.limit_windows }

/-- `InMemoryStorage::update_counter`. `none` models the panics: the
`unwrap()` on a missing `limit_windows` entry, the `panic!` on a vacant
`counters` entry, and the `expect` on a missing window slot. -/
def InMemoryStorage.update_counter (s : InMemoryStorage) (c : Counter)
    (delta now : Nat) : Option InMemoryStorage :=
  if c.is_qualified then
    let qkey := QualifiedCounterValueSetKey.ofCounter c
    match (match getA qkey s.qualified_counters with
           | some cvs => some (cvs, s.qualified_counters)
           | none =>
             match getA (CounterValueSetKey.ofLimit c.limit) s.limit_windows with
             | none => none
             | some ws =>
               let cvs := CounterValueSet.new ws
               some (cvs, setA qkey cvs s.qualified_counters)) with
    | none => none
    | some (cvs, cache) =>
      match cvs.update c.window delta now with
      | none => none
      | some (_, cvs2) => some { s with qualified_counters := setA qkey cvs2 cache }
  else
    match getA (CounterValueSetKey.ofLimit c.limit) s.counters with
    | none => none
    | some cvs =>
      match cvs.update c.window delta now with
      | none => none
      | some (_, cvs2) =>
        some { s with counters := setA (CounterValueSetKey.ofLimit c.limit) cvs2 s.counters }

/-- `Self::counter_is_within_limits` from `storage/in_memory.rs`. -/
def counterIsWithinLimits (c : Counter) (currentVal : Option Nat) (delta : Nat) : Bool :=
  match currentVal with
  | some v => v + delta ≤ c.max_value
  | none => delta ≤ c.max_value

/-- The `process_counter` closure of `check_and_update`. The write-back of
`remaining` onto the caller's counter is not modelled (it is never read again
by the store); the closure's control flow is kept, including the
`first_limited` bookkeeping driven by `checked_sub`. Returns the early result
and the updated `first_limited`. -/
def processCounter (loadCounters : Bool) (firstLimited : Option Authorization)
    (c : Counter) (value delta : Nat) : Option Authorization × Option Authorization :=
  let fl :=
    if loadCounters then
      let remaining := checkedSub c.max_value (value + delta)
      if firstLimited.isNone && remaining.isNone then
        some (Authorization.Limited c.limit.name)
      else firstLimited
    else firstLimited
  if !counterIsWithinLimits c (some value) delta then
    (some (Authorization.Limited c.limit.name), fl)
  else (none, fl)

/-- The simple-counter pass of `check_and_update`: walk the batch keeping the
unqualified counters, read each value under the read lock, run
`process_counter`, and collect the (key, window) slots whose retained
references the commit phase will update. `none` models a panic (the
`unwrap()` on an unregistered limit or the `expect` on a missing window
slot); `Except.error` models the early `return` taken when a counter is over
its limit and `load_counters` is false. -/
def checkSimple (s : InMemoryStorage) (delta now : Nat) (loadCounters : Bool) :
    List Counter → Option Authorization → List (CounterValueSetKey × Nat) →
    Option (Except Authorization (Option Authorization × List (CounterValueSetKey × Nat)))
  | [], fl, acc => some (Except.ok (fl, acc))
  | c :: rest, fl, acc =>
    if c.is_qualified then checkSimple s delta now loadCounters rest fl acc
    else
      match getA (CounterValueSetKey.ofLimit c.limit) s.counters with
      | none => none
      | some cvs =>
        let pr := processCounter loadCounters fl c (cvs.value c.window now) delta
        match pr.1 with
        | some limited =>
          if loadCounters then
            match cvs.expiring_value_of c.window with
            | none => none
            | some _ =>
              checkSimple s delta now loadCounters rest pr.2
                (acc ++ [(CounterValueSetKey.ofLimit c.limit, c.window)])
          else some (Except.error limited)
        | none =>
          match cvs.expiring_value_of c.window with
          | none => none
          | some _ =>
            checkSimple s delta now loadCounters rest pr.2
              (acc ++ [(CounterValueSetKey.ofLimit c.limit, c.window)])

/-- The qualified-counter pass of `check_and_update`: `get_with` on the cache
inserts a fresh `CounterValueSet` built from `limit_windows` on a miss (this
mutation survives even an early `Limited` return), then the counter is
processed like a simple one and its (key, window) pair is collected for the
commit phase. -/
def checkQualified (limitWindows : List (CounterValueSetKey × List Nat))
    (delta now : Nat) (loadCounters : Bool) :
    List Counter → List (QualifiedCounterValueSetKey × CounterValueSet) →
    Option Authorization → List (QualifiedCounterValueSetKey × Nat) →
    Option (Except (Authorization × List (QualifiedCounterValueSetKey × CounterValueSet))
      (Option Authorization × List (QualifiedCounterValueSetKey × CounterValueSet) ×
        List (QualifiedCounterValueSetKey × Nat)))
  | [], cache, fl, acc => some (Except.ok (fl, cache, acc))
  | c :: rest, cache, fl, acc =>
    if c.is_qualified then
      let qkey := QualifiedCounterValueSetKey.ofCounter c
      match (match getA qkey cache with
             | some cvs => some (cvs, cache)
             | none =>
               match getA (CounterValueSetKey.ofLimit c.limit) limitWindows with
               | none => none
               | some ws =>
                 let cvs := CounterValueSet.new ws
                 some (cvs, setA qkey cvs cache)) with
      | none => none
      | some (cvs, cache2) =>
        let pr := processCounter loadCounters fl c (cvs.value c.window now) delta
        match pr.1 with
        | some limited =>
          if loadCounters then
            checkQualified limitWindows delta now loadCounters rest cache2 pr.2
              (acc ++ [(qkey, c.window)])
          else some (Except.error (limited, cache2))
        | none =>
          checkQualified limitWindows delta now loadCounters rest cache2 pr.2
            (acc ++ [(qkey, c.window)])
    else checkQualified limitWindows delta now loadCounters rest cache fl acc

/-- The in-place `AtomicExpiringValue::update` performed by the commit phase
through the reference `expiring_value_of` retained: the first slot matching
the window (the one the retained reference points to) is updated, everything
else is untouched. -/
def updateSlotScan (delta w now : Nat) : List CounterValue → List CounterValue
  | [] => []
  | v :: rest =>
    if v.seconds < w then v :: updateSlotScan delta w now rest
    else if v.seconds = w then { v with value := (v.value.update delta w now).2 } :: rest
    else v :: rest

/-- One in-place `v.update(delta, *ttl, now)` of the commit phase, performed
through the retained reference: the entry's matching window slot is updated.
The reference is live, so the entry is necessarily present; a missing entry
leaves the map unchanged (unreachable). -/
def commitSimpleStep (delta now : Nat) (m : List (CounterValueSetKey × CounterValueSet))
    (key : CounterValueSetKey) (w : Nat) : List (CounterValueSetKey × CounterValueSet) :=
  match getA key m with
  | none => m
  | some cvs => setA key ⟨updateSlotScan delta w now cvs.values⟩ m

/-- The commit loop over the retained simple-counter references. -/
def commitSimple (delta now : Nat) :
    List (CounterValueSetKey × Nat) → List (CounterValueSetKey × CounterValueSet) →
    List (CounterValueSetKey × CounterValueSet)
  | [], m => m
  | (key, w) :: rest, m => commitSimple delta now rest (commitSimpleStep delta now m key w)

/-- One `v.update(*ttl, delta, now).expect(..)` of the qualified commit: the
`expect` on a missing window slot is a panic (`none`). The `Arc` held since
the check phase keeps the entry alive, so a missing cache entry is
unreachable (`none` as well). -/
def commitQualifiedStep (delta now : Nat)
    (m : List (QualifiedCounterValueSetKey × CounterValueSet))
    (qkey : QualifiedCounterValueSetKey) (w : Nat) :
    Option (List (QualifiedCounterValueSetKey × CounterValueSet)) :=
  match getA qkey m with
  | none => none
  | some cvs =>
    match cvs.update w delta now with
    | none => none
    | some p => some (setA qkey p.2 m)

/-- The commit loop over the retained qualified `Arc<CounterValueSet>`
handles. -/
def commitQualified (delta now : Nat) :
    List (QualifiedCounterValueSetKey × Nat) →
    List (QualifiedCounterValueSetKey × CounterValueSet) →
    Option (List (QualifiedCounterValueSetKey × CounterValueSet))
  | [], m => some m
  | (qkey, w) :: rest, m =>
    match commitQualifiedStep delta now m qkey w with
    | none => none
    | some m2 => commitQualified delta now rest m2

/-- `InMemoryStorage::check_and_update`: dry run over the simple counters in
batch order, then over the qualified counters in batch order, then either the
recorded `first_limited`, or the commit of `delta` into every collected
slot. -/
def InMemoryStorage.check_and_update (s : InMemoryStorage) (counters : List Counter)
    (delta : Nat) (loadCounters : Bool) (now : Nat) :
    Option (Authorization × InMemoryStorage) :=
  match checkSimple s delta now loadCounters counters none [] with
  | none => none
  | some (Except.error limited) => some (limited, s)
  | some (Except.ok (fl, simpleAcc)) =>
    match checkQualified s.limit_windows delta now loadCounters counters
        s.qualified_counters fl [] with
    | none => none
    | some (Except.error (limited, cache)) =>
      some (limited, { s with qualified_counters := cache })
    | some (Except.ok (fl2, cache, qualAcc)) =>
      match fl2 with
      | some limited => some (limited, { s with qualified_counters := cache })
      | none =>
        let counters2 := commitSimple delta now simpleAcc s.counters
        match commitQualified delta now qualAcc cache with
        | none => none
        | some cache2 =>
          some (Authorization.Ok, { s with counters := counters2, qualified_counters := cache2 })

/-- The simple-counter half of `InMemoryStorage::get_counters`: for each
variable-free limit with a resident entry, `to_counters` (whose unchecked
subtraction panics on a value above the maximum, propagated as `none`), then
the TTL > 0 filter. -/
def getCountersSimple (s : InMemoryStorage) (now : Nat) :
    List Limit → Option (List Counter)
  | [] => some []
  | l :: rest =>
    if l.vars.isEmpty then
      match getA (CounterValueSetKey.ofLimit l) s.counters with
      | none => getCountersSimple s now rest
      | some cvs =>
        match cvs.to_counters l now with
        | none => none
        | some cs =>
          (getCountersSimple s now rest).map
            (fun acc => cs.filter (fun c => 0 < c.expires_in.getD 0) ++ acc)
    else getCountersSimple s now rest

/-- One qualified cache entry of `get_counters`: for each limit the entry's
key applies to, build the counter, compute `remaining` with the unchecked
subtraction (panic on underflow) and `expires_in` through the `expect` on the
window slot (panic when absent), then filter by TTL > 0. -/
def qualifiedEntryCounters (qkey : QualifiedCounterValueSetKey) (cvs : CounterValueSet)
    (now : Nat) : List Limit → Option (List Counter)
  | [] => some []
  | l :: rest =>
    if qkey.limit_key.applies_to l then
      let c0 := Counter.of l qkey.qualifiers
      match checkedSub c0.max_value (cvs.value c0.window now) with
      | none => none
      | some rem =>
        match cvs.expiring_value_of c0.window with
        | none => none
        | some aev =>
          let c1 : Counter := { c0 with remaining := some rem, expires_in := some (aev.ttl now) }
          (qualifiedEntryCounters qkey cvs now rest).map
            (fun acc => (if 0 < aev.ttl now then [c1] else []) ++ acc)
    else qualifiedEntryCounters qkey cvs now rest

/-- The qualified half of `get_counters`, iterating the cache entries. -/
def getCountersQualified (limits : List Limit) (now : Nat) :
    List (QualifiedCounterValueSetKey × CounterValueSet) → Option (List Counter)
  | [] => some []
  | (qkey, cvs) :: rest =>
    match qualifiedEntryCounters qkey cvs now limits with
    | none => none
    | some cs => (getCountersQualified limits now rest).map (fun acc => cs ++ acc)

/-- `InMemoryStorage::get_counters` over a list of limits (the `HashSet`
iteration is some order of the list; a panic is order-independent). -/
def InMemoryStorage.get_counters (s : InMemoryStorage) (limits : List Limit)
    (now : Nat) : Option (List Counter) :=
  match getCountersSimple s now limits with
  | none => none
  | some simpleCs =>
    match getCountersQualified limits now s.qualified_counters with
    | none => none
    | some qualCs => some (simpleCs ++ qualCs)

/-- `InMemoryStorage::delete_counters_of_limit`. -/
def InMemoryStorage.delete_counters_of_limit (s : InMemoryStorage) (l : Limit) :
    InMemoryStorage :=
  if l.vars.isEmpty then
    { s with counters := s.counters.filter (fun e => e.1 ≠ CounterValueSetKey.ofLimit l) }
  else
    { s with qualified_counters :=
        s.qualified_counters.filter (fun e => e.1.limit_key ≠ CounterValueSetKey.ofLimit l) }

/-- `InMemoryStorage::clear`. -/
def InMemoryStorage.clear (s : InMemoryStorage) : InMemoryStorage :=
  { s with counters := [], qualified_counters := [] }

/-- `Storage` from `storage/mod.rs`: the registry plus the counter store; the
`HashMap<Namespace, HashSet<Arc<Limit>>>` is an association list of limit
lists, the set semantics being the `limitEq` equality. -/
structure Storage where
  limits : List (String × List Limit)
  counters : InMemoryStorage
deriving DecidableEq

/-- `HashSet<Arc<Limit>>::get` under the limit equality. -/
def findLimit (l : Limit) (ls : List Limit) : Option Limit :=
  ls.find? (fun x => limitEq x l)

/-- `Storage::update_limit`: when an equal limit (by limit equality, that is,
by key) exists in the namespace and its `max_value` or `name` differs from the
update's, remove it, insert the update and return true; otherwise return
false and change nothing. The counter store is never touched. -/
def Storage.update_limit (st : Storage) (update : Limit) : Bool × Storage :=
  match getA update.ns st.limits with
  | none => (false, st)
  | some ls =>
    let reqUpdate :=
      match findLimit update ls with
      | some l => decide (l.max_value ≠ update.max_value ∨ l.name ≠ update.name)
      | none => false
    if reqUpdate then
      let ls2 := (ls.filter (fun x => !limitEq x update)) ++ [update]
      (true, { st with limits := setA update.ns ls2 st.limits })
    else (false, st)

/-- The stored value a counter currently reads: exactly the read that
`is_within_limits` and the dry run of `check_and_update` perform (`0` for an
absent or expired slot). -/
def readValue (s : InMemoryStorage) (c : Counter) (now : Nat) : Nat :=
  if c.is_qualified then
    ((getA (QualifiedCounterValueSetKey.ofCounter c) s.qualified_counters).map
      (fun cvs => cvs.value c.window now)).getD 0
  else
    ((getA (CounterValueSetKey.ofLimit c.limit) s.counters).map
      (fun cvs => cvs.value c.window now)).getD 0

/-- The window-seeking loop of the scans, on a bare window list: `true` when
an equal window is met before the first greater one (on the sorted lists the
store builds, simply membership). -/
def seeksWindow (w : Nat) : List Nat → Bool
  | [] => false
  | x :: rest => if x < w then seeksWindow w rest else decide (x = w)

/-- A simple counter is registered: its limit's entry is resident and holds a
slot for its window (what `add_counter` establishes). -/
def simpleRegistered (s : InMemoryStorage) (c : Counter) : Prop :=
  ∃ cvs, getA (CounterValueSetKey.ofLimit c.limit) s.counters = some cvs ∧
    (cvs.expiring_value_of c.window).isSome

/-- A qualified counter is registered: `limit_windows` has the limit's entry
with the counter's window findable by the scans, and any already-cached value
set for the counter carries a slot for the window. -/
def qualifiedRegistered (s : InMemoryStorage) (c : Counter) : Prop :=
  (∃ ws, getA (CounterValueSetKey.ofLimit c.limit) s.limit_windows = some ws ∧
    seeksWindow c.window ws) ∧
  (∀ cvs, getA (QualifiedCounterValueSetKey.ofCounter c) s.qualified_counters = some cvs →
    (cvs.expiring_value_of c.window).isSome)

def registered (s : InMemoryStorage) (c : Counter) : Prop :=
  if c.is_qualified then qualifiedRegistered s c else simpleRegistered s c

/-- The storage slot a counter reads and writes: its map section, key and
window. Two counters with the same slot alias the same accumulator. -/
def slotOf (c : Counter) :
    (CounterValueSetKey × Nat) ⊕ (QualifiedCounterValueSetKey × Nat) :=
  if c.is_qualified then Sum.inr (QualifiedCounterValueSetKey.ofCounter c, c.window)
  else Sum.inl (CounterValueSetKey.ofLimit c.limit, c.window)

/-- The order in which `check_and_update` actually processes a batch: the
simple counters in batch order, then the qualified counters in batch order. -/
def processingOrder (batch : List Counter) : List Counter :=
  batch.filter (fun c => !c.is_qualified) ++ batch.filter (fun c => c.is_qualified)

/-- The first counter of a list that cannot absorb `delta` on top of its
current value. -/
def firstFailing (s : InMemoryStorage) (now delta : Nat) (l : List Counter) :
    Option Counter :=
  l.find? (fun c => decide (c.max_value < readValue s c now + delta))

/-- Ascending order with no duplicate windows. -/
def CounterValueSet.wellOrdered (s : CounterValueSet) : Prop :=
  List.Chain' (fun a b : CounterValue => a.seconds < b.seconds) s.values

/-- The `HashSet` invariant of the registry: limits in one namespace are
pairwise distinct under limit equality. -/
def storageWellFormed (st : Storage) : Prop :=
  ∀ ns ls, getA ns st.limits = some ls → ls.Pairwise (fun a b => limitEq a b = false)

/-! Concrete instances used by witnesses and counterexamples. -/

/-- A simple limit: max 1, window 60 s. -/
def exLimitSimple : Limit := ⟨"api", 1, 60, [], [], none, none⟩

def exCounterSimple : Counter := Counter.of exLimitSimple []

/-- The store after registering `exLimitSimple`. -/
def exState1 : InMemoryStorage := (default : InMemoryStorage).add_counter exLimitSimple

/-- The store after `update_counter` pushed the counter to 5, over its max of
1 — reachable because `update_counter` performs no limit check. -/
def exState2 : InMemoryStorage :=
  (exState1.update_counter exCounterSimple 5 0).getD default

/-- A qualified limit with identity `x` and window `w`: all three share the
`Identity "x"` counter-value-set key. -/
def exQualLimit (w : Nat) : Limit := ⟨"n", 1, w, [], ["u"], some "x", none⟩

/-- The store after `add_counter` for windows 10 s, 20 s, 10 s under the same
identity key. -/
def exStateQ : InMemoryStorage :=
  (((default : InMemoryStorage).add_counter (exQualLimit 10)).add_counter
    (exQualLimit 20)).add_counter (exQualLimit 10)

/-- A named qualified limit with max 0: any positive delta is over it. -/
def exLimitQual0 : Limit := ⟨"api", 0, 60, [], ["user"], none, some "qual"⟩

/-- A named simple limit with max 0. -/
def exLimitSimple0 : Limit := ⟨"api", 0, 60, [], [], none, some "simple"⟩

def exCounterQual0 : Counter := Counter.of exLimitQual0 [("user", "A")]

def exCounterSimple0 : Counter := Counter.of exLimitSimple0 []

/-- Both max-0 limits registered. -/
def exStateMixed : InMemoryStorage :=
  ((default : InMemoryStorage).add_counter exLimitSimple0).add_counter exLimitQual0

/-- A simple limit with max 10. -/
def exLimitSimple10 : Limit := ⟨"api", 10, 60, [], [], none, none⟩

def exCounterSimple10 : Counter := Counter.of exLimitSimple10 []

def exStateTen : InMemoryStorage := (default : InMemoryStorage).add_counter exLimitSimple10

/-- A registry holding one limit, max 1, unnamed. -/
def exLimitOld : Limit := ⟨"api", 1, 60, [], [], none, none⟩

/-- The same limit with max 2: equal by key, different `max_value`. -/
def exLimitUpd : Limit := ⟨"api", 2, 60, [], [], none, none⟩

def exStorage : Storage := ⟨[("api", [exLimitOld])], default⟩

/-- `Option.or`: the source's `first_limited` keeps the first authorization
recorded. -/
def flOr (a b : Option Authorization) : Option Authorization :=
  match a with
  | some x => some x
  | none => b

/-- The value a (key, window) slot of a counter-value-set map reads. -/
def readSlot {κ : Type} [DecidableEq κ] (m : List (κ × CounterValueSet)) (k : κ)
    (w now : Nat) : Nat :=
  ((getA k m).map (fun cvs => cvs.value w now)).getD 0

/-- The (key, window) slot is resident with a matching window entry. -/
def slotSome {κ : Type} [DecidableEq κ] (m : List (κ × CounterValueSet)) (k : κ)
    (w : Nat) : Prop :=
  ∃ cvs, getA k m = some cvs ∧ (cvs.expiring_value_of w).isSome

/-- The window skeleton of an entry, invariant under commits. -/
def shapeAt {κ : Type} [DecidableEq κ] (m : List (κ × CounterValueSet)) (k : κ) :
    Option (List Nat) :=
  (getA k m).map (fun cvs => cvs.values.map (fun v => v.seconds))

/-- The commit slots the simple pass of `check_and_update` collects. -/
def simpleSlots (batch : List Counter) : List (CounterValueSetKey × Nat) :=
  (batch.filter (fun c => !c.is_qualified)).map
    (fun c => (CounterValueSetKey.ofLimit c.limit, c.window))

/-- The commit slots the qualified pass of `check_and_update` collects. -/
def qualSlots (batch : List Counter) : List (QualifiedCounterValueSetKey × Nat) :=
  (batch.filter (fun c => c.is_qualified)).map
    (fun c => (QualifiedCounterValueSetKey.ofCounter c, c.window))

/-- How the qualified cache evolves during the dry run: existing entries are
untouched, and any new entry is a fresh zero-valued `CounterValueSet` built
from the `limit_windows` template of its limit key. -/
def cacheExt (lw : List (CounterValueSetKey × List Nat))
    (orig cur : List (QualifiedCounterValueSetKey × CounterValueSet)) : Prop :=
  (∀ qk, getA qk orig ≠ none → getA qk cur = getA qk orig) ∧
  (∀ qk cvs, getA qk cur = some cvs →
    getA qk orig = some cvs ∨
    (getA qk orig = none ∧
      ∃ ws, getA qk.limit_key lw = some ws ∧ cvs = CounterValueSet.new ws))

/-- The value a qualified counter reads from a given cache (`0` when absent
or expired). -/
def cacheRead (cache : List (QualifiedCounterValueSetKey × CounterValueSet))
    (c : Counter) (now : Nat) : Nat :=
  ((getA (QualifiedCounterValueSetKey.ofCounter c) cache).map
    (fun cvs => cvs.value c.window now)).getD 0

/-- The result of the mixed-batch decision used as a C2 counterexample. -/
def exMixedResult : Authorization × InMemoryStorage :=
  (exStateMixed.check_and_update [exCounterQual0, exCounterSimple0] 1 false 0).getD
    (Authorization.Ok, default)

/-! Theorems. -/

theorem getA_setA_self {κ β : Type} [DecidableEq κ] (k : κ) (v : β) (m : List (κ × β)) :
    getA k (setA k v m) = some v := by
  induction m with
  | nil => simp [getA, setA]
  | cons hd tl ih =>
    obtain ⟨k0, v0⟩ := hd
    by_cases h : k0 = k <;> simp [getA, setA, h, ih]

theorem getA_setA_other {κ β : Type} [DecidableEq κ] {k k' : κ} (hne : k' ≠ k)
    (v : β) (m : List (κ × β)) : getA k' (setA k v m) = getA k' m := by
  have hne2 : ¬k = k' := fun h => hne h.symm
  induction m with
  | nil => simp [getA, setA, hne2]
  | cons hd tl ih =>
    obtain ⟨k0, v0⟩ := hd
    by_cases h : k0 = k
    · subst h
      simp [getA, setA, hne2]
    · simp only [setA, if_neg h, getA]
      by_cases h2 : k0 = k' <;> simp [h2, ih]

/-- C6: sequentially, an update of the atomic expiring counter at time `t`
with `delta` resets an at-or-past-expiry counter to the state
`(delta, t + window)` returning the count `delta`, and otherwise adds `delta`
to the count under the unchanged expiry, returning the new count. -/
theorem C6_concurrent_counter_update (c : ConcurrentCounter) (t delta : Nat) :
    (c.expires_at ≤ t →
      c.next_at t delta = ((delta, c.expires_at), ⟨delta, t + c.duration, c.duration⟩)) ∧
    (t < c.expires_at →
      c.next_at t delta =
        ((c.value + delta, c.expires_at), ⟨c.value + delta, c.expires_at, c.duration⟩)) := by
  refine ⟨fun h => ?_, fun h => ?_⟩
  · simp [ConcurrentCounter.next_at, h]
  · simp [ConcurrentCounter.next_at, Nat.not_le.mpr h]

/-- C6 witness: both branches at concrete inputs. -/
theorem C6_concurrent_counter_update_witness :
    (⟨3, 5, 7⟩ : ConcurrentCounter).next_at 5 2 = ((2, 5), ⟨2, 12, 7⟩) ∧
    (⟨3, 5, 7⟩ : ConcurrentCounter).next_at 4 2 = ((5, 5), ⟨5, 5, 7⟩) :=
  ⟨(C6_concurrent_counter_update ⟨3, 5, 7⟩ 5 2).1 (by decide),
   (C6_concurrent_counter_update ⟨3, 5, 7⟩ 4 2).2 (by decide)⟩

/-- C9: `return_to(t, delta)` succeeds exactly when `t` equals the current
expiry and the count strictly exceeds `delta`; on success the count drops by
exactly `delta`, on failure nothing changes; in particular returning the whole
outstanding count (count equal to delta) fails and changes nothing, even in
the same epoch. -/
theorem C9_return_to_partial_undo (c : ConcurrentCounter) (t delta : Nat) :
    ((c.return_to t delta).1 = true ↔ t = c.expires_at ∧ delta < c.value) ∧
    ((c.return_to t delta).1 = true →
      (c.return_to t delta).2 = ⟨c.value - delta, c.expires_at, c.duration⟩) ∧
    ((c.return_to t delta).1 = false → (c.return_to t delta).2 = c) ∧
    (c.value = delta → c.return_to t delta = (false, c)) := by
  by_cases he : t = c.expires_at
  · by_cases hv : delta < c.value
    · refine ⟨by simp [ConcurrentCounter.return_to, he, hv], ?_, ?_, ?_⟩
      · intro _
        simp [ConcurrentCounter.return_to, he, hv]
      · intro hfalse
        simp [ConcurrentCounter.return_to, he, hv] at hfalse
      · intro hval
        omega
    · refine ⟨by simp [ConcurrentCounter.return_to, he, hv], ?_, ?_, ?_⟩
      · intro htrue
        simp [ConcurrentCounter.return_to, he, hv] at htrue
      · intro _
        simp [ConcurrentCounter.return_to, he, hv]
      · intro _
        simp [ConcurrentCounter.return_to, he, hv]
  · refine ⟨by simp [ConcurrentCounter.return_to, he], ?_, ?_, ?_⟩
    · intro htrue
      simp [ConcurrentCounter.return_to, he] at htrue
    · intro _
      simp [ConcurrentCounter.return_to, he]
    · intro _
      simp [ConcurrentCounter.return_to, he]

/-- C9 witness: successful partial undo, and the whole-count undo refused. -/
theorem C9_return_to_partial_undo_witness :
    ((⟨5, 10, 3⟩ : ConcurrentCounter).return_to 10 2).1 = true ∧
    ((⟨5, 10, 3⟩ : ConcurrentCounter).return_to 10 2).2 = ⟨3, 10, 3⟩ ∧
    (⟨5, 10, 3⟩ : ConcurrentCounter).return_to 10 5 = (false, ⟨5, 10, 3⟩) :=
  ⟨(C9_return_to_partial_undo ⟨5, 10, 3⟩ 10 2).1.mpr (by decide),
   (C9_return_to_partial_undo ⟨5, 10, 3⟩ 10 2).2.1
     ((C9_return_to_partial_undo ⟨5, 10, 3⟩ 10 2).1.mpr (by decide)),
   (C9_return_to_partial_undo ⟨5, 10, 3⟩ 10 5).2.2.2 (by decide)⟩

/-- C3 counterexample: the claim "is_within_limits(C, 0) returns true in every
reachable state" is false. Reachable trace: register the max-1 limit with
`add_counter`, push its counter to 5 with the check-free `update_counter`;
then `is_within_limits(C, 0)` computes `1 ≥ 5` and returns false. -/
theorem C3_counterexample :
    (exState2.is_within_limits exCounterSimple 0 0).1 = false := by decide

/-- C3 amended: `is_within_limits(C, 0)` never mutates the store, and it
returns true in every state in which the value `C` currently reads does not
exceed its maximum (the read can exceed the maximum only through the
check-free `update_counter`). -/
theorem C3_is_within_limits_neutral (s : InMemoryStorage) (c : Counter) (now : Nat)
    (h : readValue s c now ≤ c.max_value) :
    (s.is_within_limits c 0 now).1 = true ∧ (s.is_within_limits c 0 now).2 = s := by
  constructor
  · simp only [InMemoryStorage.is_within_limits, readValue, Counter.window] at *
    simpa using h
  · rfl

/-- C3 witness: a state in which the counter is at its maximum. -/
theorem C3_is_within_limits_neutral_witness :
    readValue exState1 exCounterSimple 0 ≤ exCounterSimple.max_value ∧
    (exState1.is_within_limits exCounterSimple 0 0).1 = true ∧
    (exState1.is_within_limits exCounterSimple 0 0).2 = exState1 :=
  ⟨by decide, C3_is_within_limits_neutral exState1 exCounterSimple 0 (by decide)⟩

/-- C4: evaluation at the failing input. `add_counter` for qualified limits
sharing the identity key `x` with windows 10 s, 20 s, 10 s leaves the window
list `[10, 10, 20]`: sorted, but with a duplicate, because the source calls
`dedup()` (which only removes consecutive duplicates) before `sort()`. -/
theorem C4_limit_windows_duplicate_eval :
    getA (CounterValueSetKey.Identity "x") exStateQ.limit_windows = some [10, 10, 20] ∧
    ¬ ([10, 10, 20] : List Nat).Nodup := by
  constructor
  · decide
  · decide

theorem updateScan_isSome_eq_evScan (w delta now : Nat) (l : List CounterValue) :
    (updateScan w delta now l).isSome = (evScan w l).isSome := by
  induction l with
  | nil => rfl
  | cons v rest ih =>
    by_cases h1 : v.seconds < w
    · simpa [updateScan, evScan, h1] using ih
    · by_cases h2 : v.seconds = w <;> simp [updateScan, evScan, h1, h2]

theorem windowPresent_eq_evScan (w : Nat) (l : List CounterValue) :
    windowPresent w l = (evScan w l).isSome := by
  induction l with
  | nil => rfl
  | cons v rest ih =>
    by_cases h1 : v.seconds < w
    · simpa [windowPresent, evScan, h1] using ih
    · by_cases h2 : v.seconds = w <;> simp [windowPresent, evScan, h1, h2]

instance : IsTotal CounterValue (fun a b : CounterValue => a.seconds ≤ b.seconds) :=
  ⟨fun a b => Nat.le_total a.seconds b.seconds⟩

instance : IsTrans CounterValue (fun a b : CounterValue => a.seconds ≤ b.seconds) :=
  ⟨fun _ _ _ h1 h2 => Nat.le_trans h1 h2⟩

theorem evScan_isSome_of_sorted_mem {l : List CounterValue}
    (hs : List.Sorted (fun a b : CounterValue => a.seconds ≤ b.seconds) l) {w : Nat}
    (hmem : ∃ v ∈ l, v.seconds = w) : (evScan w l).isSome := by
  induction l with
  | nil => simp at hmem
  | cons v rest ih =>
    obtain ⟨x, hx, hxw⟩ := hmem
    rcases List.mem_cons.mp hx with hx | hx
    · subst hx
      by_cases h1 : x.seconds < w
      · omega
      · simp [evScan, h1, hxw]
    · by_cases h1 : v.seconds < w
      · simpa [evScan, h1] using ih hs.of_cons ⟨x, hx, hxw⟩
      · have hvw : v.seconds = w := by
          have := List.rel_of_sorted_cons hs x hx
          omega
        simp [evScan, h1, hvw]

theorem add_window_has_slot (s : CounterValueSet) (w : Nat) :
    ((s.add_window w).expiring_value_of w).isSome := by
  by_cases hp : windowPresent w s.values
  · have h1 : s.add_window w = s := by simp [CounterValueSet.add_window, hp]
    rw [h1]
    rw [windowPresent_eq_evScan] at hp
    exact hp
  · have h1 : s.add_window w =
        ⟨List.insertionSort (fun a b => a.seconds ≤ b.seconds)
          (s.values ++ [⟨w, default⟩])⟩ := by
      simp [CounterValueSet.add_window, hp]
    rw [h1]
    apply evScan_isSome_of_sorted_mem
    · exact List.sorted_insertionSort _ _
    · refine ⟨⟨w, default⟩, ?_, rfl⟩
      have hperm := List.perm_insertionSort
        (fun a b : CounterValue => a.seconds ≤ b.seconds) (s.values ++ [⟨w, default⟩])
      exact hperm.mem_iff.mpr (by simp)

theorem updateCVS_none_iff (s : CounterValueSet) (w delta now : Nat) :
    s.update w delta now = none ↔ s.expiring_value_of w = none := by
  rw [CounterValueSet.update, CounterValueSet.expiring_value_of]
  have h2 := updateScan_isSome_eq_evScan w delta now s.values
  cases hscan : updateScan w delta now s.values with
  | none =>
    rw [hscan] at h2
    cases hev : evScan w s.values with
    | none => simp
    | some a => rw [hev] at h2; simp at h2
  | some p =>
    rw [hscan] at h2
    cases hev : evScan w s.values with
    | none => rw [hev] at h2; simp at h2
    | some a => simp

theorem updateCVS_isSome (s : CounterValueSet) (w delta now : Nat) :
    (s.update w delta now).isSome = (s.expiring_value_of w).isSome := by
  rw [CounterValueSet.update, CounterValueSet.expiring_value_of,
    ← updateScan_isSome_eq_evScan w delta now]
  cases updateScan w delta now s.values <;> simp

/-- C7: `update_counter` on a simple counter panics exactly when the counters
map has no entry for the counter's limit key or the resident entry has no slot
for the counter's window; and after `add_counter` with the counter's limit,
`update_counter` succeeds (both panic branches are unreachable). -/
theorem C7_update_counter_panic_iff (s : InMemoryStorage) (c : Counter)
    (delta now : Nat) (h : c.is_qualified = false) :
    (s.update_counter c delta now = none ↔
      getA (CounterValueSetKey.ofLimit c.limit) s.counters = none ∨
      ∃ cvs, getA (CounterValueSetKey.ofLimit c.limit) s.counters = some cvs ∧
        cvs.expiring_value_of c.window = none) ∧
    ((s.add_counter c.limit).update_counter c delta now).isSome := by
  have hvars : c.limit.vars.isEmpty = true := by
    simpa [Counter.is_qualified] using h
  constructor
  · rw [InMemoryStorage.update_counter, if_neg (by simp [h])]
    constructor
    · intro hnone
      split at hnone
      · next hget => exact Or.inl hget
      · next cvs hget =>
        split at hnone
        · next hupd =>
          exact Or.inr ⟨cvs, hget, (updateCVS_none_iff cvs c.window delta now).mp hupd⟩
        · next v2 cvs2 hupd => simp at hnone
    · rintro (hnone | ⟨cvs, hget, hev⟩)
      · rw [hnone]
      · have hupd := (updateCVS_none_iff cvs c.window delta now).mpr hev
        simp [hget, hupd]
  · rw [InMemoryStorage.add_counter, if_pos hvars]
    rw [InMemoryStorage.update_counter, if_neg (by simp [h])]
    simp only [getA_setA_self]
    have hslot := add_window_has_slot
      ((getA (CounterValueSetKey.ofLimit c.limit) s.counters).getD default) c.limit.seconds
    have h2 : ((((getA (CounterValueSetKey.ofLimit c.limit) s.counters).getD
        default).add_window c.limit.seconds).update c.window delta now).isSome := by
      rw [updateCVS_isSome]
      exact hslot
    cases hu : (((getA (CounterValueSetKey.ofLimit c.limit) s.counters).getD
        default).add_window c.limit.seconds).update c.window delta now with
    | none => rw [hu] at h2; simp at h2
    | some p => simp [hu]

/-- C7 witness: at the concrete max-1 limit. -/
theorem C7_update_counter_panic_iff_witness :
    ((default : InMemoryStorage).update_counter exCounterSimple 1 0 = none ↔
      getA (CounterValueSetKey.ofLimit exCounterSimple.limit)
        (default : InMemoryStorage).counters = none ∨
      ∃ cvs, getA (CounterValueSetKey.ofLimit exCounterSimple.limit)
          (default : InMemoryStorage).counters = some cvs ∧
        cvs.expiring_value_of exCounterSimple.window = none) ∧
    (((default : InMemoryStorage).add_counter exCounterSimple.limit).update_counter
      exCounterSimple 1 0).isSome :=
  C7_update_counter_panic_iff (default : InMemoryStorage) exCounterSimple 1 0 (by decide)

theorem toCountersScan_none {l : Limit} {now : Nat} {vs : List CounterValue}
    (h : ∃ v ∈ vs, l.max_value < v.value.value_at now) :
    toCountersScan l now vs = none := by
  induction vs with
  | nil => simp at h
  | cons v rest ih =>
    obtain ⟨x, hx, hxo⟩ := h
    rcases List.mem_cons.mp hx with hx | hx
    · subst hx
      have hle : ¬(x.value.value_at now ≤ l.max_value) := by omega
      simp [toCountersScan, checkedSub, hle]
    · rw [toCountersScan]
      cases hsub : checkedSub l.max_value (v.value.value_at now) with
      | none => rfl
      | some rem => rw [ih ⟨x, hx, hxo⟩]; rfl

theorem getCountersSimple_none {s : InMemoryStorage} {now : Nat} {limits : List Limit}
    {l : Limit} (hmem : l ∈ limits) (hsimple : l.vars.isEmpty = true)
    {cvs : CounterValueSet}
    (hget : getA (CounterValueSetKey.ofLimit l) s.counters = some cvs)
    (hover : ∃ v ∈ cvs.values, l.max_value < v.value.value_at now) :
    getCountersSimple s now limits = none := by
  induction limits with
  | nil => simp at hmem
  | cons hd rest ih =>
    rcases List.mem_cons.mp hmem with hh | hh
    · subst hh
      have ht : cvs.to_counters l now = none := toCountersScan_none hover
      simp [getCountersSimple, hsimple, hget, ht]
    · rw [getCountersSimple]
      by_cases hv : hd.vars.isEmpty
      · rw [if_pos hv]
        cases hg : getA (CounterValueSetKey.ofLimit hd) s.counters with
        | none => simpa using ih hh
        | some cvs2 =>
          cases ht : cvs2.to_counters hd now with
          | none => simp [ht]
          | some cs => simp [ht, ih hh]
      · rw [if_neg hv]
        exact ih hh

/-- C10: `get_counters` computes `remaining` by unchecked `u64` subtraction
`max_value - value`; in any state in which some resident simple counter's
unexpired stored value exceeds its limit's maximum (reachable, because
`update_counter` applies deltas with no limit check), `get_counters` panics
(modelled as `none`) instead of returning a result. -/
theorem C10_get_counters_underflow_panics (s : InMemoryStorage) (limits : List Limit)
    (l : Limit) (now : Nat) (hmem : l ∈ limits) (hsimple : l.vars.isEmpty = true)
    (cvs : CounterValueSet)
    (hget : getA (CounterValueSetKey.ofLimit l) s.counters = some cvs)
    (hover : ∃ v ∈ cvs.values, l.max_value < v.value.value_at now) :
    s.get_counters limits now = none := by
  rw [InMemoryStorage.get_counters]
  rw [getCountersSimple_none hmem hsimple hget hover]

/-- C10 witness: the reachable trace `add_counter` (max 1), then
`update_counter` by 5, then `get_counters` at the same instant panics. -/
theorem C10_get_counters_underflow_panics_witness :
    exState2.get_counters [exLimitSimple] 0 = none :=
  C10_get_counters_underflow_panics exState2 [exLimitSimple] exLimitSimple 0
    (by decide) (by decide) ⟨[⟨60, ⟨5, 60000000000⟩⟩]⟩ (by decide) (by decide)

theorem windowPresent_of_sorted_mem {l : List CounterValue}
    (hs : List.Sorted (fun a b : CounterValue => a.seconds ≤ b.seconds) l) {w : Nat}
    (hmem : ∃ v ∈ l, v.seconds = w) : windowPresent w l = true := by
  rw [windowPresent_eq_evScan]
  exact evScan_isSome_of_sorted_mem hs hmem

theorem add_window_idem (s : CounterValueSet) (w : Nat) :
    (s.add_window w).add_window w = s.add_window w := by
  by_cases hp : windowPresent w s.values
  · have h1 : s.add_window w = s := by simp [CounterValueSet.add_window, hp]
    rw [h1]
    exact h1
  · have h1 : s.add_window w =
        ⟨List.insertionSort (fun a b : CounterValue => a.seconds ≤ b.seconds)
          (s.values ++ [⟨w, default⟩])⟩ := by
      simp [CounterValueSet.add_window, hp]
    have hp2 : windowPresent w (s.add_window w).values = true := by
      rw [h1]
      apply windowPresent_of_sorted_mem (List.sorted_insertionSort _ _)
      refine ⟨⟨w, default⟩, ?_, rfl⟩
      exact (List.perm_insertionSort _ _).mem_iff.mpr (by simp)
    conv_lhs => rw [CounterValueSet.add_window]
    rw [if_pos hp2]

theorem add_window_perm (s : CounterValueSet) (w : Nat) :
    s.add_window w = s ∨ (s.add_window w).values.Perm (s.values ++ [⟨w, default⟩]) := by
  by_cases hp : windowPresent w s.values
  · exact Or.inl (by simp [CounterValueSet.add_window, hp])
  · refine Or.inr ?_
    simp only [CounterValueSet.add_window, hp, if_neg, Bool.false_eq_true,
      not_false_eq_true, if_false]
    exact List.perm_insertionSort _ _

instance : IsTrans CounterValue (fun a b : CounterValue => a.seconds < b.seconds) :=
  ⟨fun _ _ _ h1 h2 => Nat.lt_trans h1 h2⟩

theorem pairwise_lt_of_sorted_nodup :
    ∀ {l : List CounterValue},
      List.Sorted (fun a b : CounterValue => a.seconds ≤ b.seconds) l →
      (l.map (fun v => v.seconds)).Nodup →
      List.Pairwise (fun a b : CounterValue => a.seconds < b.seconds) l := by
  intro l
  induction l with
  | nil => intro _ _; exact List.Pairwise.nil
  | cons v rest ih =>
    intro hs hn
    rw [List.map_cons, List.nodup_cons] at hn
    obtain ⟨hnotin, hn2⟩ := hn
    rw [List.pairwise_cons]
    constructor
    · intro b hb
      have hle := List.rel_of_sorted_cons hs b hb
      have hne : v.seconds ≠ b.seconds := by
        intro hcontra
        exact hnotin (by rw [hcontra]; exact List.mem_map_of_mem _ hb)
      omega
    · exact ih hs.of_cons hn2

theorem add_window_wellOrdered {s : CounterValueSet} (h : s.wellOrdered) (w : Nat) :
    (s.add_window w).wellOrdered := by
  by_cases hp : windowPresent w s.values
  · have h1 : s.add_window w = s := by simp [CounterValueSet.add_window, hp]
    rw [h1]
    exact h
  · have h1 : s.add_window w =
        ⟨List.insertionSort (fun a b : CounterValue => a.seconds ≤ b.seconds)
          (s.values ++ [⟨w, default⟩])⟩ := by
      simp [CounterValueSet.add_window, hp]
    rw [h1]
    have hpw : List.Pairwise (fun a b : CounterValue => a.seconds < b.seconds) s.values :=
      List.chain'_iff_pairwise.mp h
    have hsorted : List.Sorted (fun a b : CounterValue => a.seconds ≤ b.seconds) s.values :=
      hpw.imp (fun hab => Nat.le_of_lt hab)
    have hnotmem : ¬∃ v ∈ s.values, v.seconds = w := by
      intro hmem
      rw [windowPresent_of_sorted_mem hsorted hmem] at hp
      exact hp rfl
    have hnodup : ((s.values ++ [(⟨w, default⟩ : CounterValue)]).map
        (fun v => v.seconds)).Nodup := by
      rw [List.map_append]
      refine List.Nodup.append ?_ (by simp) ?_
      · exact (List.pairwise_map.mpr (hpw.imp (fun hab => Nat.ne_of_lt hab)))
      · intro a ha hb
        have hb2 : a = w := by simpa using hb
        subst hb2
        obtain ⟨v, hv, hveq⟩ := List.mem_map.mp ha
        exact hnotmem ⟨v, hv, hveq⟩
    have hperm := List.perm_insertionSort
      (fun a b : CounterValue => a.seconds ≤ b.seconds) (s.values ++ [⟨w, default⟩])
    have hnodup2 : ((List.insertionSort (fun a b : CounterValue => a.seconds ≤ b.seconds)
        (s.values ++ [⟨w, default⟩])).map (fun v => v.seconds)).Nodup :=
      ((hperm.map (fun v => v.seconds)).nodup_iff).mpr hnodup
    have hsorted2 := List.sorted_insertionSort
      (fun a b : CounterValue => a.seconds ≤ b.seconds) (s.values ++ [⟨w, default⟩])
    exact (pairwise_lt_of_sorted_nodup hsorted2 hnodup2).chain'

theorem foldl_add_window_wellOrdered_aux :
    ∀ (l : List Nat) (s : CounterValueSet), s.wellOrdered →
      (l.foldl CounterValueSet.add_window s).wellOrdered := by
  intro l
  induction l with
  | nil => intro s hs; exact hs
  | cons w rest ih =>
    intro s hs
    exact ih (s.add_window w) (add_window_wellOrdered hs w)

/-- C5: `add_window` is idempotent; it either leaves the set unchanged or
extends it by exactly one fresh zero-valued entry, so it never removes an
entry and never disturbs the accumulated count of an existing one; and after
any sequence of `add_window` calls from the default (empty) set the entries
are strictly ascending in window seconds, hence sorted with no duplicates. -/
theorem C5_add_window_invariants :
    (∀ (s : CounterValueSet) (w : Nat), (s.add_window w).add_window w = s.add_window w) ∧
    (∀ (s : CounterValueSet) (w : Nat),
      s.add_window w = s ∨ (s.add_window w).values.Perm (s.values ++ [⟨w, default⟩])) ∧
    (∀ l : List Nat,
      (l.foldl CounterValueSet.add_window (default : CounterValueSet)).wellOrdered) :=
  ⟨add_window_idem, add_window_perm,
   fun l => foldl_add_window_wellOrdered_aux l default (by exact List.chain'_nil)⟩

theorem limitEq_euclid {a b u : Limit} (hau : limitEq a u = true)
    (hbu : limitEq b u = true) : limitEq a b = true := by
  unfold limitEq at *
  cases ha : a.id <;> cases hb : b.id <;> cases hu : u.id <;>
    rw [ha, hu] at hau <;> rw [hb, hu] at hbu <;> simp_all

theorem find?_limitEq_unique {ls : List Limit}
    (hpw : ls.Pairwise (fun a b => limitEq a b = false)) {l u : Limit}
    (hmem : l ∈ ls) (heq : limitEq l u = true) :
    List.find? (fun x => limitEq x u) ls = some l := by
  induction ls with
  | nil => simp at hmem
  | cons hd rest ih =>
    rw [List.pairwise_cons] at hpw
    obtain ⟨hhd, hrest⟩ := hpw
    rcases List.mem_cons.mp hmem with hh | hh
    · subst hh
      simp [List.find?_cons, heq]
    · have hne : limitEq hd u = false := by
        cases hx : limitEq hd u
        · rfl
        · have h3 : limitEq hd l = true := limitEq_euclid hx heq
          have h4 := hhd l hh
          rw [h3] at h4
          cases h4
      simp only [List.find?_cons, hne]
      exact ih hrest hh

/-- C8: `update_limit(update)` returns true and swaps in `update` exactly when
an equal limit (by key identity) already exists in the update's namespace with
a differing `max_value` or `name`; otherwise it returns false and leaves the
registry unchanged, and the counter store is untouched in every case. -/
theorem C8_update_limit_semantics (st : Storage) (u : Limit)
    (hwf : storageWellFormed st) :
    ((st.update_limit u).1 = true ↔
      ∃ ls l, getA u.ns st.limits = some ls ∧ l ∈ ls ∧ limitEq l u = true ∧
        (l.max_value ≠ u.max_value ∨ l.name ≠ u.name)) ∧
    ((st.update_limit u).1 = true →
      ∃ ls, getA u.ns st.limits = some ls ∧
        (st.update_limit u).2.limits =
          setA u.ns ((ls.filter (fun x => !limitEq x u)) ++ [u]) st.limits) ∧
    ((st.update_limit u).1 = false → (st.update_limit u).2 = st) ∧
    (st.update_limit u).2.counters = st.counters := by
  cases hg : getA u.ns st.limits with
  | none =>
    have hres : st.update_limit u = (false, st) := by
      rw [Storage.update_limit, hg]
    rw [hres]
    refine ⟨by simp, by simp, fun _ => rfl, rfl⟩
  | some ls =>
    have hpw := hwf u.ns ls hg
    cases hf : List.find? (fun x => limitEq x u) ls with
    | none =>
      have hnone : ∀ x ∈ ls, limitEq x u = false := by
        intro x hx
        have := List.find?_eq_none.mp hf x hx
        simpa using this
      have hres : st.update_limit u = (false, st) := by
        rw [Storage.update_limit, hg]
        simp only [findLimit, hf]
        rfl
      rw [hres]
      refine ⟨?_, by simp, fun _ => rfl, rfl⟩
      simp only [Bool.false_eq_true, false_iff]
      rintro ⟨ls2, l2, hg2, hmem2, heq2, _⟩
      injection hg2 with hg3
      subst hg3
      rw [hnone l2 hmem2] at heq2
      cases heq2
    | some l0 =>
      have hl0mem := List.mem_of_find?_eq_some hf
      have hl0eq : limitEq l0 u = true := by simpa using List.find?_some hf
      by_cases hdiff : l0.max_value ≠ u.max_value ∨ l0.name ≠ u.name
      · have hres : st.update_limit u =
            (true, ⟨setA u.ns ((ls.filter (fun x => !limitEq x u)) ++ [u]) st.limits,
              st.counters⟩) := by
          rw [Storage.update_limit, hg]
          have hd2 : decide (l0.max_value ≠ u.max_value ∨ l0.name ≠ u.name) = true :=
            decide_eq_true hdiff
          simp only [findLimit, hf, hd2]
          rfl
        rw [hres]
        refine ⟨?_, ?_, ?_, rfl⟩
        · simp only [true_iff]
          exact ⟨ls, l0, rfl, hl0mem, hl0eq, hdiff⟩
        · intro _
          exact ⟨ls, rfl, rfl⟩
        · intro hcontra
          simp at hcontra
      · have hres : st.update_limit u = (false, st) := by
          rw [Storage.update_limit, hg]
          have hd2 : decide (l0.max_value ≠ u.max_value ∨ l0.name ≠ u.name) = false :=
            decide_eq_false hdiff
          simp only [findLimit, hf, hd2]
          rfl
        rw [hres]
        refine ⟨?_, by simp, fun _ => rfl, rfl⟩
        simp only [Bool.false_eq_true, false_iff]
        rintro ⟨ls2, l2, hg2, hmem2, heq2, hdiff2⟩
        injection hg2 with hg3
        subst hg3
        have hfind := find?_limitEq_unique hpw hmem2 heq2
        rw [hf] at hfind
        injection hfind with hfind2
        subst hfind2
        exact hdiff hdiff2

/-- C8 witness: the stored max-1 limit is replaced by the equal-by-key max-2
update; the counter store is untouched. -/
theorem C8_update_limit_semantics_witness :
    (exStorage.update_limit exLimitUpd).1 = true ∧
    (exStorage.update_limit exLimitUpd).2.counters = exStorage.counters := by
  have hwf : storageWellFormed exStorage := by
    intro ns ls h
    simp only [exStorage, getA] at h
    split at h
    · cases h
      simp
    · exact Option.noConfusion h
  exact ⟨(C8_update_limit_semantics exStorage exLimitUpd hwf).1.mpr
      ⟨[exLimitOld], exLimitOld, rfl, by simp, by decide, by decide⟩,
    (C8_update_limit_semantics exStorage exLimitUpd hwf).2.2.2⟩

theorem processCounter_pass (load : Bool) (fl : Option Authorization) (c : Counter)
    (value delta : Nat) (h : value + delta ≤ c.max_value) :
    processCounter load fl c value delta = (none, fl) := by
  have hsub : checkedSub c.max_value (value + delta) = some (c.max_value - (value + delta)) := by
    simp [checkedSub, h]
  have hwithin : counterIsWithinLimits c (some value) delta = true := by
    simpa [counterIsWithinLimits] using h
  cases load <;> simp [processCounter, hsub, hwithin]

theorem processCounter_fail (load : Bool) (fl : Option Authorization) (c : Counter)
    (value delta : Nat) (h : c.max_value < value + delta) :
    processCounter load fl c value delta =
      (some (Authorization.Limited c.limit.name),
        if load then flOr fl (some (Authorization.Limited c.limit.name)) else fl) := by
  have hsub : checkedSub c.max_value (value + delta) = none := by
    have h2 : ¬(value + delta ≤ c.max_value) := by omega
    simp [checkedSub, h2]
  have hwithin : counterIsWithinLimits c (some value) delta = false := by
    simp only [counterIsWithinLimits]
    simpa using h
  cases load with
  | false => simp [processCounter, hwithin]
  | true =>
    cases fl with
    | none => simp [processCounter, hsub, hwithin, flOr]
    | some a => simp [processCounter, hsub, hwithin, flOr]

theorem new_value_zero (ws : List Nat) (w now : Nat) :
    (CounterValueSet.new ws).value w now = 0 := by
  rw [CounterValueSet.new, CounterValueSet.value]
  induction ws with
  | nil => rfl
  | cons x rest ih =>
    by_cases h1 : x < w
    · simpa [valueScan, CounterValue.from_secs, h1] using ih
    · by_cases h2 : x = w <;>
        simp [valueScan, CounterValue.from_secs, h1, h2,
          AtomicExpiringValue.value_at, instInhabitedAtomicExpiringValue, default]

theorem new_slot_eq_seeks (ws : List Nat) (w : Nat) :
    ((CounterValueSet.new ws).expiring_value_of w).isSome = seeksWindow w ws := by
  rw [CounterValueSet.new, CounterValueSet.expiring_value_of]
  induction ws with
  | nil => rfl
  | cons x rest ih =>
    by_cases h1 : x < w
    · simpa [evScan, seeksWindow, CounterValue.from_secs, h1] using ih
    · by_cases h2 : x = w <;> simp [evScan, seeksWindow, CounterValue.from_secs, h1, h2]

theorem readValue_simple {s : InMemoryStorage} {c : Counter}
    (h : c.is_qualified = false) {cvs : CounterValueSet}
    (hget : getA (CounterValueSetKey.ofLimit c.limit) s.counters = some cvs) (now : Nat) :
    readValue s c now = cvs.value c.window now := by
  simp [readValue, h, hget]

theorem readValue_qualified {s : InMemoryStorage} {c : Counter}
    (h : c.is_qualified = true) (now : Nat) :
    readValue s c now =
      ((getA (QualifiedCounterValueSetKey.ofCounter c) s.qualified_counters).map
        (fun cvs => cvs.value c.window now)).getD 0 := by
  simp [readValue, h]

theorem aev_update_read (a : AtomicExpiringValue) (delta w now : Nat) (hw : 0 < w) :
    ((a.update delta w now).2).value_at now = a.value_at now + delta := by
  rw [AtomicExpiringValue.update]
  by_cases h : a.expiry_ns ≤ now
  · rw [if_pos h]
    have h2 : now < now + w * nsPerSec := by
      have : 0 < w * nsPerSec := Nat.mul_pos hw (by norm_num [nsPerSec])
      omega
    simp [AtomicExpiringValue.value_at, h2, Nat.not_lt.mpr h]
  · rw [if_neg h]
    have h2 : now < a.expiry_ns := Nat.not_le.mp h
    simp [AtomicExpiringValue.value_at, h2]

theorem updateSlotScan_value_same (delta w now : Nat) (vs : List CounterValue)
    (hw : 0 < w) (hslot : (evScan w vs).isSome) :
    valueScan w now (updateSlotScan delta w now vs) = valueScan w now vs + delta := by
  induction vs with
  | nil => simp [evScan] at hslot
  | cons v rest ih =>
    by_cases h1 : v.seconds < w
    · rw [updateSlotScan, if_pos h1]
      rw [valueScan, if_pos h1]
      rw [valueScan, if_pos h1]
      exact ih (by simpa [evScan, h1] using hslot)
    · by_cases h2 : v.seconds = w
      · rw [updateSlotScan, if_neg h1, if_pos h2]
        rw [valueScan, if_neg h1, if_pos h2]
        rw [valueScan, if_neg h1, if_pos h2]
        subst h2
        exact aev_update_read v.value delta v.seconds now hw
      · rw [evScan, if_neg h1, if_neg h2] at hslot
        simp at hslot

theorem updateSlotScan_value_other (delta w now w2 now2 : Nat) (vs : List CounterValue)
    (hne : w2 ≠ w) :
    valueScan w2 now2 (updateSlotScan delta w now vs) = valueScan w2 now2 vs := by
  induction vs with
  | nil => rfl
  | cons v rest ih =>
    by_cases h1 : v.seconds < w
    · rw [updateSlotScan, if_pos h1]
      by_cases h3 : v.seconds < w2
      · rw [valueScan, if_pos h3, valueScan, if_pos h3]
        exact ih
      · by_cases h4 : v.seconds = w2
        · rw [valueScan, if_neg h3, if_pos h4, valueScan, if_neg h3, if_pos h4]
        · rw [valueScan, if_neg h3, if_neg h4, valueScan, if_neg h3, if_neg h4]
    · by_cases h2 : v.seconds = w
      · rw [updateSlotScan, if_neg h1, if_pos h2]
        have h4 : ¬v.seconds = w2 := by
          rw [h2]
          intro hc
          exact hne hc.symm
        by_cases h3 : v.seconds < w2 <;> simp [valueScan, h3, h4]
      · rw [updateSlotScan, if_neg h1, if_neg h2]

theorem updateSlotScan_seconds (delta w now : Nat) (vs : List CounterValue) :
    (updateSlotScan delta w now vs).map (fun v => v.seconds) =
      vs.map (fun v => v.seconds) := by
  induction vs with
  | nil => rfl
  | cons v rest ih =>
    by_cases h1 : v.seconds < w
    · rw [updateSlotScan, if_pos h1]
      simpa using ih
    · by_cases h2 : v.seconds = w <;> rw [updateSlotScan, if_neg h1] <;> simp [h2]

theorem evScan_isSome_congr {vs1 vs2 : List CounterValue}
    (h : vs1.map (fun v => v.seconds) = vs2.map (fun v => v.seconds)) (w : Nat) :
    (evScan w vs1).isSome = (evScan w vs2).isSome := by
  induction vs1 generalizing vs2 with
  | nil =>
    cases vs2 with
    | nil => rfl
    | cons b bs => simp at h
  | cons a as ih =>
    cases vs2 with
    | nil => simp at h
    | cons b bs =>
      simp only [List.map_cons, List.cons.injEq] at h
      obtain ⟨hab, htl⟩ := h
      rw [evScan, evScan, hab]
      by_cases h1 : b.seconds < w
      · simp only [if_pos h1]
        exact ih htl
      · by_cases h2 : b.seconds = w <;> simp [h1, h2]

theorem flOr_none_right (a : Option Authorization) : flOr a none = a := by
  cases a <;> rfl

theorem flOr_assoc (a b c : Option Authorization) :
    flOr (flOr a b) c = flOr a (flOr b c) := by
  cases a <;> rfl

theorem flOr_some_left (a : Authorization) (b : Option Authorization) :
    flOr (some a) b = some a := rfl

theorem checkSimple_ok_inv {s : InMemoryStorage} {delta now : Nat} {load : Bool} :
    ∀ {l : List Counter} {fl : Option Authorization}
      {acc : List (CounterValueSetKey × Nat)} {fl2 : Option Authorization}
      {acc2 : List (CounterValueSetKey × Nat)},
      checkSimple s delta now load l fl acc = some (Except.ok (fl2, acc2)) →
      acc2 = acc ++ simpleSlots l ∧
      (∀ c ∈ l, c.is_qualified = false → simpleRegistered s c) ∧
      (load = true → fl2 = flOr fl ((firstFailing s now delta
          (l.filter (fun x => !x.is_qualified))).map
        (fun x => Authorization.Limited x.limit.name))) ∧
      (load = false → fl2 = fl ∧
        firstFailing s now delta (l.filter (fun x => !x.is_qualified)) = none) := by
  intro l
  induction l with
  | nil =>
    intro fl acc fl2 acc2 h
    simp only [checkSimple, Option.some.injEq, Except.ok.injEq, Prod.mk.injEq] at h
    obtain ⟨h1, h2⟩ := h
    subst h1
    subst h2
    refine ⟨by simp [simpleSlots], by simp, ?_, ?_⟩
    · intro _
      simp [firstFailing, flOr_none_right]
    · intro _
      exact ⟨rfl, rfl⟩
  | cons c rest ih =>
    intro fl acc fl2 acc2 h
    simp only [checkSimple] at h
    by_cases hq : c.is_qualified
    · rw [if_pos hq] at h
      obtain ⟨ha, hreg, hlt, hlf⟩ := ih h
      have hfilter : (c :: rest).filter (fun x => !x.is_qualified) =
          rest.filter (fun x => !x.is_qualified) := by
        simp [List.filter_cons, hq]
      have hslots : simpleSlots (c :: rest) = simpleSlots rest := by
        simp [simpleSlots, List.filter_cons, hq]
      refine ⟨by rw [ha, hslots], ?_, by rw [hfilter]; exact hlt, by rw [hfilter]; exact hlf⟩
      intro c2 hc2 hq2
      rcases List.mem_cons.mp hc2 with rfl | hc2
      · rw [hq2] at hq
        cases hq
      · exact hreg c2 hc2 hq2
    · rw [if_neg hq] at h
      cases hget : getA (CounterValueSetKey.ofLimit c.limit) s.counters with
      | none =>
        rw [hget] at h
        simp at h
      | some cvs =>
        rw [hget] at h
        simp only [] at h
        have hqf : c.is_qualified = false := by simpa using hq
        have hfilter : (c :: rest).filter (fun x => !x.is_qualified) =
            c :: rest.filter (fun x => !x.is_qualified) := by
          simp [List.filter_cons, hqf]
        have hslots : simpleSlots (c :: rest) =
            (CounterValueSetKey.ofLimit c.limit, c.window) :: simpleSlots rest := by
          simp [simpleSlots, List.filter_cons, hqf]
        have hval : cvs.value c.window now = readValue s c now :=
          (readValue_simple hqf hget now).symm
        by_cases hcv : cvs.value c.window now + delta ≤ c.max_value
        · rw [processCounter_pass load fl c _ delta hcv] at h
          simp only [] at h
          cases hev : cvs.expiring_value_of c.window with
          | none =>
            rw [hev] at h
            simp at h
          | some aev =>
            rw [hev] at h
            simp only [] at h
            obtain ⟨ha, hreg, hlt, hlf⟩ := ih h
            have hpred : (decide (c.max_value < readValue s c now + delta)) = false :=
              decide_eq_false (by omega)
            have hff : firstFailing s now delta
                ((c :: rest).filter (fun x => !x.is_qualified)) =
                firstFailing s now delta (rest.filter (fun x => !x.is_qualified)) := by
              rw [hfilter]
              simp [firstFailing, List.find?_cons, hpred]
            refine ⟨?_, ?_, ?_, ?_⟩
            · rw [ha, hslots]
              simp
            · intro c2 hc2 hq2
              rcases List.mem_cons.mp hc2 with rfl | hc2
              · exact ⟨cvs, hget, by rw [hev]; rfl⟩
              · exact hreg c2 hc2 hq2
            · intro hl
              rw [hff]
              exact hlt hl
            · intro hl
              obtain ⟨h1, h2⟩ := hlf hl
              exact ⟨h1, by rw [hff]; exact h2⟩
        · have hfail : c.max_value < cvs.value c.window now + delta := by omega
          rw [processCounter_fail load fl c _ delta hfail] at h
          simp only [] at h
          have hpred : (decide (c.max_value < readValue s c now + delta)) = true :=
            decide_eq_true (by omega)
          have hff : firstFailing s now delta
              ((c :: rest).filter (fun x => !x.is_qualified)) = some c := by
            rw [hfilter]
            simp [firstFailing, List.find?_cons, hpred]
          cases load with
          | false =>
            simp at h
          | true =>
            simp only [] at h
            cases hev : cvs.expiring_value_of c.window with
            | none =>
              rw [hev] at h
              simp at h
            | some aev =>
              rw [hev] at h
              simp only [] at h
              obtain ⟨ha, hreg, hlt, _⟩ := ih h
              refine ⟨?_, ?_, ?_, ?_⟩
              · rw [ha, hslots]
                simp
              · intro c2 hc2 hq2
                rcases List.mem_cons.mp hc2 with rfl | hc2
                · exact ⟨cvs, hget, by rw [hev]; rfl⟩
                · exact hreg c2 hc2 hq2
              · intro _
                rw [hff]
                have h2 := hlt rfl
                simp only [if_true] at h2
                rw [h2, flOr_assoc]
                simp [flOr_some_left]
              · intro hl
                cases hl


theorem checkSimple_err_inv {s : InMemoryStorage} {delta now : Nat} {load : Bool} :
    ∀ {l : List Counter} {fl : Option Authorization}
      {acc : List (CounterValueSetKey × Nat)} {a : Authorization},
      checkSimple s delta now load l fl acc = some (Except.error a) →
      load = false ∧ ∃ c0, firstFailing s now delta
          (l.filter (fun x => !x.is_qualified)) = some c0 ∧
        a = Authorization.Limited c0.limit.name := by
  intro l
  induction l with
  | nil =>
    intro fl acc a h
    simp [checkSimple] at h
  | cons c rest ih =>
    intro fl acc a h
    simp only [checkSimple] at h
    by_cases hq : c.is_qualified
    · rw [if_pos hq] at h
      obtain ⟨hl, c0, hff, ha⟩ := ih h
      have hfilter : (c :: rest).filter (fun x => !x.is_qualified) =
          rest.filter (fun x => !x.is_qualified) := by
        simp [List.filter_cons, hq]
      exact ⟨hl, c0, by rw [hfilter]; exact hff, ha⟩
    · rw [if_neg hq] at h
      cases hget : getA (CounterValueSetKey.ofLimit c.limit) s.counters with
      | none =>
        rw [hget] at h
        simp at h
      | some cvs =>
        rw [hget] at h
        simp only [] at h
        have hqf : c.is_qualified = false := by simpa using hq
        have hfilter : (c :: rest).filter (fun x => !x.is_qualified) =
            c :: rest.filter (fun x => !x.is_qualified) := by
          simp [List.filter_cons, hqf]
        have hval : cvs.value c.window now = readValue s c now :=
          (readValue_simple hqf hget now).symm
        by_cases hcv : cvs.value c.window now + delta ≤ c.max_value
        · rw [processCounter_pass load fl c _ delta hcv] at h
          simp only [] at h
          cases hev : cvs.expiring_value_of c.window with
          | none =>
            rw [hev] at h
            simp at h
          | some aev =>
            rw [hev] at h
            simp only [] at h
            obtain ⟨hl, c0, hff, ha⟩ := ih h
            have hpred : (decide (c.max_value < readValue s c now + delta)) = false :=
              decide_eq_false (by omega)
            refine ⟨hl, c0, ?_, ha⟩
            rw [hfilter]
            simpa [firstFailing, List.find?_cons, hpred] using hff
        · have hfail : c.max_value < cvs.value c.window now + delta := by omega
          rw [processCounter_fail load fl c _ delta hfail] at h
          simp only [] at h
          have hpred : (decide (c.max_value < readValue s c now + delta)) = true :=
            decide_eq_true (by omega)
          have hff : firstFailing s now delta
              ((c :: rest).filter (fun x => !x.is_qualified)) = some c := by
            rw [hfilter]
            simp [firstFailing, List.find?_cons, hpred]
          cases load with
          | false =>
            simp only [Bool.false_eq_true, if_false, Option.some.injEq,
              Except.error.injEq] at h
            exact ⟨rfl, c, hff, h.symm⟩
          | true =>
            simp only [if_true] at h
            cases hev : cvs.expiring_value_of c.window with
            | none =>
              rw [hev] at h
              simp at h
            | some aev =>
              rw [hev] at h
              simp only [] at h
              exact absurd (ih h).1 (by simp)

theorem checkSimple_total {s : InMemoryStorage} {delta now : Nat} {load : Bool} :
    ∀ {l : List Counter} (fl : Option Authorization)
      (acc : List (CounterValueSetKey × Nat)),
      (∀ c ∈ l, c.is_qualified = false → simpleRegistered s c) →
      (checkSimple s delta now load l fl acc).isSome := by
  intro l
  induction l with
  | nil =>
    intro fl acc _
    simp [checkSimple]
  | cons c rest ih =>
    intro fl acc hreg
    simp only [checkSimple]
    by_cases hq : c.is_qualified
    · rw [if_pos hq]
      exact ih _ _ (fun c2 hc2 => hreg c2 (List.mem_cons_of_mem _ hc2))
    · rw [if_neg hq]
      have hqf : c.is_qualified = false := by simpa using hq
      obtain ⟨cvs, hget, hev⟩ := hreg c (List.mem_cons_self c rest) hqf
      rw [hget]
      simp only []
      by_cases hcv : cvs.value c.window now + delta ≤ c.max_value
      · rw [processCounter_pass load fl c _ delta hcv]
        simp only []
        cases hev2 : cvs.expiring_value_of c.window with
        | none =>
          rw [hev2] at hev
          simp at hev
        | some aev =>
          simp only []
          exact ih _ _ (fun c2 hc2 => hreg c2 (List.mem_cons_of_mem _ hc2))
      · have hfail : c.max_value < cvs.value c.window now + delta := by omega
        rw [processCounter_fail load fl c _ delta hfail]
        simp only []
        cases load with
        | false => simp
        | true =>
          simp only [if_true]
          cases hev2 : cvs.expiring_value_of c.window with
          | none =>
            rw [hev2] at hev
            simp at hev
          | some aev =>
            simp only []
            exact ih _ _ (fun c2 hc2 => hreg c2 (List.mem_cons_of_mem _ hc2))

theorem cacheExt_refl (lw : List (CounterValueSetKey × List Nat))
    (m : List (QualifiedCounterValueSetKey × CounterValueSet)) : cacheExt lw m m :=
  ⟨fun _ _ => rfl, fun _ _ h => Or.inl h⟩

theorem cacheExt_trans {lw : List (CounterValueSetKey × List Nat)}
    {a b c : List (QualifiedCounterValueSetKey × CounterValueSet)}
    (h1 : cacheExt lw a b) (h2 : cacheExt lw b c) : cacheExt lw a c := by
  obtain ⟨h1a, h1b⟩ := h1
  obtain ⟨h2a, h2b⟩ := h2
  constructor
  · intro qk hne
    have hb := h1a qk hne
    have hbne : getA qk b ≠ none := by
      rw [hb]
      exact hne
    rw [h2a qk hbne, hb]
  · intro qk cvs hget
    rcases h2b qk cvs hget with hb | ⟨hbnone, ws, hws, rfl⟩
    · exact h1b qk cvs hb
    · right
      refine ⟨?_, ws, hws, rfl⟩
      cases ha : getA qk a with
      | none => rfl
      | some v =>
        have := h1a qk (by rw [ha]; simp)
        rw [hbnone, ha] at this
        cases this

theorem cacheExt_insert {lw : List (CounterValueSetKey × List Nat)}
    {orig cache : List (QualifiedCounterValueSetKey × CounterValueSet)}
    (hext : cacheExt lw orig cache) {qk : QualifiedCounterValueSetKey} {ws : List Nat}
    (hmiss : getA qk cache = none) (hws : getA qk.limit_key lw = some ws) :
    cacheExt lw orig (setA qk (CounterValueSet.new ws) cache) := by
  obtain ⟨h1, h2⟩ := hext
  have horig : getA qk orig = none := by
    cases ho : getA qk orig with
    | none => rfl
    | some v =>
      have := h1 qk (by rw [ho]; simp)
      rw [hmiss, ho] at this
      cases this
  constructor
  · intro qk2 hne
    by_cases he : qk = qk2
    · subst he
      rw [horig] at hne
      exact absurd rfl hne
    · rw [getA_setA_other (fun hh => he hh.symm)]
      exact h1 qk2 hne
  · intro qk2 cvs hget
    by_cases he : qk2 = qk
    · subst he
      rw [getA_setA_self] at hget
      injection hget with hget2
      exact Or.inr ⟨horig, ws, hws, hget2.symm⟩
    · rw [getA_setA_other he] at hget
      exact h2 qk2 cvs hget

theorem cacheExt_read {lw : List (CounterValueSetKey × List Nat)}
    {orig cur : List (QualifiedCounterValueSetKey × CounterValueSet)}
    (hext : cacheExt lw orig cur) (c : Counter) (now : Nat) :
    cacheRead cur c now = cacheRead orig c now := by
  obtain ⟨h1, h2⟩ := hext
  cases ho : getA (QualifiedCounterValueSetKey.ofCounter c) orig with
  | some v =>
    have := h1 _ (by rw [ho]; simp)
    rw [cacheRead, cacheRead, this, ho]
  | none =>
    cases hc : getA (QualifiedCounterValueSetKey.ofCounter c) cur with
    | none => rw [cacheRead, cacheRead, hc, ho]
    | some cvs =>
      rcases h2 _ _ hc with h3 | ⟨_, ws, _, hnew⟩
      · rw [h3] at ho
        cases ho
      · subst hnew
        rw [cacheRead, cacheRead, hc, ho]
        simp [new_value_zero]

theorem slot_from_ext {lw : List (CounterValueSetKey × List Nat)}
    {orig cache2 : List (QualifiedCounterValueSetKey × CounterValueSet)}
    (hext : cacheExt lw orig cache2) {c : Counter}
    (hws : ∃ ws, getA (CounterValueSetKey.ofLimit c.limit) lw = some ws ∧
      seeksWindow c.window ws)
    (horig : ∀ cvs, getA (QualifiedCounterValueSetKey.ofCounter c) orig = some cvs →
      (cvs.expiring_value_of c.window).isSome)
    (hpres : getA (QualifiedCounterValueSetKey.ofCounter c) cache2 ≠ none) :
    ∃ cvs, getA (QualifiedCounterValueSetKey.ofCounter c) cache2 = some cvs ∧
      (cvs.expiring_value_of c.window).isSome := by
  cases hc : getA (QualifiedCounterValueSetKey.ofCounter c) cache2 with
  | none => exact absurd hc hpres
  | some cvs =>
    rcases hext.2 _ _ hc with h | ⟨_, ws, hws2, hnew⟩
    · exact ⟨cvs, rfl, horig _ h⟩
    · obtain ⟨ws2, hws3, hseeks⟩ := hws
      have hkey : (QualifiedCounterValueSetKey.ofCounter c).limit_key =
          CounterValueSetKey.ofLimit c.limit := rfl
      rw [hkey, hws3] at hws2
      injection hws2 with hws4
      subst hws4
      subst hnew
      refine ⟨_, rfl, ?_⟩
      rw [new_slot_eq_seeks]
      exact hseeks

theorem checkQualified_ok_inv {lw : List (CounterValueSetKey × List Nat)}
    {delta now : Nat} {load : Bool} :
    ∀ {l : List Counter} {cache : List (QualifiedCounterValueSetKey × CounterValueSet)}
      {fl : Option Authorization} {acc : List (QualifiedCounterValueSetKey × Nat)}
      {fl2 : Option Authorization}
      {cache2 : List (QualifiedCounterValueSetKey × CounterValueSet)}
      {acc2 : List (QualifiedCounterValueSetKey × Nat)},
      checkQualified lw delta now load l cache fl acc =
        some (Except.ok (fl2, cache2, acc2)) →
      acc2 = acc ++ qualSlots l ∧
      cacheExt lw cache cache2 ∧
      (∀ c ∈ l, c.is_qualified = true →
        getA (QualifiedCounterValueSetKey.ofCounter c) cache2 ≠ none) ∧
      (load = true → fl2 = flOr fl (((l.filter (fun x => x.is_qualified)).find?
          (fun x => decide (x.max_value < cacheRead cache x now + delta))).map
        (fun x => Authorization.Limited x.limit.name))) ∧
      (load = false → fl2 = fl ∧ (l.filter (fun x => x.is_qualified)).find?
          (fun x => decide (x.max_value < cacheRead cache x now + delta)) = none) := by
  intro l
  induction l with
  | nil =>
    intro cache fl acc fl2 cache2 acc2 h
    simp only [checkQualified, Option.some.injEq, Except.ok.injEq, Prod.mk.injEq] at h
    obtain ⟨h1, h2, h3⟩ := h
    subst h1
    subst h2
    subst h3
    refine ⟨by simp [qualSlots], cacheExt_refl lw cache, by simp, ?_, ?_⟩
    · intro _
      simp [flOr_none_right]
    · intro _
      exact ⟨rfl, rfl⟩
  | cons c rest ih =>
    intro cache fl acc fl2 cache2 acc2 h
    simp only [checkQualified] at h
    by_cases hq : c.is_qualified
    · rw [if_pos hq] at h
      try simp only [] at h
      have hfilter : (c :: rest).filter (fun x => x.is_qualified) =
          c :: rest.filter (fun x => x.is_qualified) := by
        simp [List.filter_cons, hq]
      have hslots : qualSlots (c :: rest) =
          (QualifiedCounterValueSetKey.ofCounter c, c.window) :: qualSlots rest := by
        simp [qualSlots, List.filter_cons, hq]
      cases hget : getA (QualifiedCounterValueSetKey.ofCounter c) cache with
      | some cvs =>
        rw [hget] at h
        simp only [] at h
        have hval : cvs.value c.window now = cacheRead cache c now := by
          rw [cacheRead, hget]
          rfl
        by_cases hcv : cvs.value c.window now + delta ≤ c.max_value
        · rw [processCounter_pass load fl c _ delta hcv] at h
          simp only [] at h
          obtain ⟨ha, hext, hpres, hlt, hlf⟩ := ih h
          have hpred : (decide (c.max_value < cacheRead cache c now + delta)) = false :=
            decide_eq_false (by omega)
          have hff : ((c :: rest).filter (fun x => x.is_qualified)).find?
              (fun x => decide (x.max_value < cacheRead cache x now + delta)) =
              (rest.filter (fun x => x.is_qualified)).find?
              (fun x => decide (x.max_value < cacheRead cache x now + delta)) := by
            rw [hfilter]
            simp [List.find?_cons, hpred]
          refine ⟨by rw [ha, hslots]; simp, hext, ?_, ?_, ?_⟩
          · intro c2 hc2 hq2
            rcases List.mem_cons.mp hc2 with rfl | hc2
            · have := hext.1 (QualifiedCounterValueSetKey.ofCounter c2)
                (by rw [hget]; simp)
              rw [this, hget]
              simp
            · exact hpres c2 hc2 hq2
          · intro hl
            rw [hff]
            exact hlt hl
          · intro hl
            obtain ⟨h1, h2⟩ := hlf hl
            exact ⟨h1, by rw [hff]; exact h2⟩
        · have hfail : c.max_value < cvs.value c.window now + delta := by omega
          rw [processCounter_fail load fl c _ delta hfail] at h
          simp only [] at h
          have hpred : (decide (c.max_value < cacheRead cache c now + delta)) = true :=
            decide_eq_true (by omega)
          have hff : ((c :: rest).filter (fun x => x.is_qualified)).find?
              (fun x => decide (x.max_value < cacheRead cache x now + delta)) = some c := by
            rw [hfilter]
            simp [List.find?_cons, hpred]
          cases load with
          | false =>
            simp at h
          | true =>
            simp only [if_true] at h
            obtain ⟨ha, hext, hpres, hlt, _⟩ := ih h
            refine ⟨by rw [ha, hslots]; simp, hext, ?_, ?_, ?_⟩
            · intro c2 hc2 hq2
              rcases List.mem_cons.mp hc2 with rfl | hc2
              · have := hext.1 (QualifiedCounterValueSetKey.ofCounter c2)
                  (by rw [hget]; simp)
                rw [this, hget]
                simp
              · exact hpres c2 hc2 hq2
            · intro _
              rw [hff]
              have h2 := hlt rfl
              simp only [if_true] at h2
              rw [h2, flOr_assoc]
              simp [flOr_some_left]
            · intro hl
              cases hl
      | none =>
        rw [hget] at h
        simp only [] at h
        cases hws : getA (CounterValueSetKey.ofLimit c.limit) lw with
        | none =>
          rw [hws] at h
          simp at h
        | some ws =>
          rw [hws] at h
          simp only [] at h
          have hstep : cacheExt lw cache
              (setA (QualifiedCounterValueSetKey.ofCounter c)
                (CounterValueSet.new ws) cache) :=
            cacheExt_insert (cacheExt_refl lw cache) hget hws
          have hval : (CounterValueSet.new ws).value c.window now =
              cacheRead cache c now := by
            rw [new_value_zero, cacheRead, hget]
            rfl
          have hpredeq : (fun x => decide (x.max_value <
              cacheRead (setA (QualifiedCounterValueSetKey.ofCounter c)
                (CounterValueSet.new ws) cache) x now + delta)) =
              (fun x => decide (x.max_value < cacheRead cache x now + delta)) :=
            funext fun x => by rw [cacheExt_read hstep x now]
          by_cases hcv : (CounterValueSet.new ws).value c.window now + delta ≤ c.max_value
          · rw [processCounter_pass load fl c _ delta hcv] at h
            simp only [] at h
            obtain ⟨ha, hext, hpres, hlt, hlf⟩ := ih h
            rw [hpredeq] at hlt hlf
            have hpred : (decide (c.max_value < cacheRead cache c now + delta)) = false :=
              decide_eq_false (by omega)
            have hff : ((c :: rest).filter (fun x => x.is_qualified)).find?
                (fun x => decide (x.max_value < cacheRead cache x now + delta)) =
                (rest.filter (fun x => x.is_qualified)).find?
                (fun x => decide (x.max_value < cacheRead cache x now + delta)) := by
              rw [hfilter]
              simp [List.find?_cons, hpred]
            refine ⟨by rw [ha, hslots]; simp, cacheExt_trans hstep hext, ?_, ?_, ?_⟩
            · intro c2 hc2 hq2
              rcases List.mem_cons.mp hc2 with rfl | hc2
              · have := hext.1 (QualifiedCounterValueSetKey.ofCounter c2)
                  (by rw [getA_setA_self]; simp)
                rw [this, getA_setA_self]
                simp
              · exact hpres c2 hc2 hq2
            · intro hl
              rw [hff]
              exact hlt hl
            · intro hl
              obtain ⟨h1, h2⟩ := hlf hl
              exact ⟨h1, by rw [hff]; exact h2⟩
          · have hfail : c.max_value < (CounterValueSet.new ws).value c.window now + delta := by
              omega
            rw [processCounter_fail load fl c _ delta hfail] at h
            simp only [] at h
            have hpred : (decide (c.max_value < cacheRead cache c now + delta)) = true :=
              decide_eq_true (by omega)
            have hff : ((c :: rest).filter (fun x => x.is_qualified)).find?
                (fun x => decide (x.max_value < cacheRead cache x now + delta)) = some c := by
              rw [hfilter]
              simp [List.find?_cons, hpred]
            cases load with
            | false =>
              simp at h
            | true =>
              simp only [if_true] at h
              obtain ⟨ha, hext, hpres, hlt, _⟩ := ih h
              rw [hpredeq] at hlt
              refine ⟨by rw [ha, hslots]; simp, cacheExt_trans hstep hext, ?_, ?_, ?_⟩
              · intro c2 hc2 hq2
                rcases List.mem_cons.mp hc2 with rfl | hc2
                · have := hext.1 (QualifiedCounterValueSetKey.ofCounter c2)
                    (by rw [getA_setA_self]; simp)
                  rw [this, getA_setA_self]
                  simp
                · exact hpres c2 hc2 hq2
              · intro _
                rw [hff]
                have h2 := hlt rfl
                simp only [if_true] at h2
                rw [h2, flOr_assoc]
                simp [flOr_some_left]
              · intro hl
                cases hl
    · rw [if_neg hq] at h
      obtain ⟨ha, hext, hpres, hlt, hlf⟩ := ih h
      have hfilter : (c :: rest).filter (fun x => x.is_qualified) =
          rest.filter (fun x => x.is_qualified) := by
        simp [List.filter_cons, hq]
      have hslots : qualSlots (c :: rest) = qualSlots rest := by
        simp [qualSlots, List.filter_cons, hq]
      refine ⟨by rw [ha, hslots], hext, ?_, by rw [hfilter]; exact hlt,
        by rw [hfilter]; exact hlf⟩
      intro c2 hc2 hq2
      rcases List.mem_cons.mp hc2 with rfl | hc2
      · rw [hq2] at hq
        exact absurd rfl hq
      · exact hpres c2 hc2 hq2

theorem checkQualified_err_inv {lw : List (CounterValueSetKey × List Nat)}
    {delta now : Nat} {load : Bool} :
    ∀ {l : List Counter} {cache : List (QualifiedCounterValueSetKey × CounterValueSet)}
      {fl : Option Authorization} {acc : List (QualifiedCounterValueSetKey × Nat)}
      {a : Authorization} {cache2 : List (QualifiedCounterValueSetKey × CounterValueSet)},
      checkQualified lw delta now load l cache fl acc =
        some (Except.error (a, cache2)) →
      load = false ∧ cacheExt lw cache cache2 ∧
      ∃ c0, ((l.filter (fun x => x.is_qualified)).find?
          (fun x => decide (x.max_value < cacheRead cache x now + delta))) = some c0 ∧
        a = Authorization.Limited c0.limit.name := by
  intro l
  induction l with
  | nil =>
    intro cache fl acc a cache2 h
    simp [checkQualified] at h
  | cons c rest ih =>
    intro cache fl acc a cache2 h
    simp only [checkQualified] at h
    by_cases hq : c.is_qualified
    · rw [if_pos hq] at h
      try simp only [] at h
      have hfilter : (c :: rest).filter (fun x => x.is_qualified) =
          c :: rest.filter (fun x => x.is_qualified) := by
        simp [List.filter_cons, hq]
      cases hget : getA (QualifiedCounterValueSetKey.ofCounter c) cache with
      | some cvs =>
        rw [hget] at h
        simp only [] at h
        have hval : cvs.value c.window now = cacheRead cache c now := by
          rw [cacheRead, hget]
          rfl
        by_cases hcv : cvs.value c.window now + delta ≤ c.max_value
        · rw [processCounter_pass load fl c _ delta hcv] at h
          simp only [] at h
          obtain ⟨hl, hext, c0, hff0, ha⟩ := ih h
          have hpred : (decide (c.max_value < cacheRead cache c now + delta)) = false :=
            decide_eq_false (by omega)
          refine ⟨hl, hext, c0, ?_, ha⟩
          rw [hfilter]
          simpa [List.find?_cons, hpred] using hff0
        · have hfail : c.max_value < cvs.value c.window now + delta := by omega
          rw [processCounter_fail load fl c _ delta hfail] at h
          simp only [] at h
          have hpred : (decide (c.max_value < cacheRead cache c now + delta)) = true :=
            decide_eq_true (by omega)
          have hff : ((c :: rest).filter (fun x => x.is_qualified)).find?
              (fun x => decide (x.max_value < cacheRead cache x now + delta)) = some c := by
            rw [hfilter]
            simp [List.find?_cons, hpred]
          cases load with
          | false =>
            simp only [Bool.false_eq_true, if_false, Option.some.injEq,
              Except.error.injEq, Prod.mk.injEq] at h
            obtain ⟨ha, hc⟩ := h
            subst hc
            exact ⟨rfl, cacheExt_refl lw cache, c, hff, ha.symm⟩
          | true =>
            simp only [if_true] at h
            exact absurd (ih h).1 (by simp)
      | none =>
        rw [hget] at h
        simp only [] at h
        cases hws : getA (CounterValueSetKey.ofLimit c.limit) lw with
        | none =>
          rw [hws] at h
          simp at h
        | some ws =>
          rw [hws] at h
          simp only [] at h
          have hstep : cacheExt lw cache
              (setA (QualifiedCounterValueSetKey.ofCounter c)
                (CounterValueSet.new ws) cache) :=
            cacheExt_insert (cacheExt_refl lw cache) hget hws
          have hval : (CounterValueSet.new ws).value c.window now =
              cacheRead cache c now := by
            rw [new_value_zero, cacheRead, hget]
            rfl
          have hpredeq : (fun x => decide (x.max_value <
              cacheRead (setA (QualifiedCounterValueSetKey.ofCounter c)
                (CounterValueSet.new ws) cache) x now + delta)) =
              (fun x => decide (x.max_value < cacheRead cache x now + delta)) :=
            funext fun x => by rw [cacheExt_read hstep x now]
          by_cases hcv : (CounterValueSet.new ws).value c.window now + delta ≤ c.max_value
          · rw [processCounter_pass load fl c _ delta hcv] at h
            simp only [] at h
            obtain ⟨hl, hext, c0, hff0, ha⟩ := ih h
            rw [hpredeq] at hff0
            have hpred : (decide (c.max_value < cacheRead cache c now + delta)) = false :=
              decide_eq_false (by omega)
            refine ⟨hl, cacheExt_trans hstep hext, c0, ?_, ha⟩
            rw [hfilter]
            simpa [List.find?_cons, hpred] using hff0
          · have hfail : c.max_value <
                (CounterValueSet.new ws).value c.window now + delta := by omega
            rw [processCounter_fail load fl c _ delta hfail] at h
            simp only [] at h
            have hpred : (decide (c.max_value < cacheRead cache c now + delta)) = true :=
              decide_eq_true (by omega)
            have hff : ((c :: rest).filter (fun x => x.is_qualified)).find?
                (fun x => decide (x.max_value < cacheRead cache x now + delta)) =
                some c := by
              rw [hfilter]
              simp [List.find?_cons, hpred]
            cases load with
            | false =>
              simp only [Bool.false_eq_true, if_false, Option.some.injEq,
                Except.error.injEq, Prod.mk.injEq] at h
              obtain ⟨ha, hc⟩ := h
              subst hc
              exact ⟨rfl, hstep, c, hff, ha.symm⟩
            | true =>
              simp only [if_true] at h
              exact absurd (ih h).1 (by simp)
    · rw [if_neg hq] at h
      obtain ⟨hl, hext, c0, hff0, ha⟩ := ih h
      have hfilter : (c :: rest).filter (fun x => x.is_qualified) =
          rest.filter (fun x => x.is_qualified) := by
        simp [List.filter_cons, hq]
      exact ⟨hl, hext, c0, by rw [hfilter]; exact hff0, ha⟩

theorem checkQualified_total {lw : List (CounterValueSetKey × List Nat)}
    {delta now : Nat} {load : Bool} :
    ∀ {l : List Counter} (cache : List (QualifiedCounterValueSetKey × CounterValueSet))
      (fl : Option Authorization) (acc : List (QualifiedCounterValueSetKey × Nat)),
      (∀ c ∈ l, c.is_qualified = true →
        (getA (CounterValueSetKey.ofLimit c.limit) lw).isSome) →
      (checkQualified lw delta now load l cache fl acc).isSome := by
  intro l
  induction l with
  | nil =>
    intro cache fl acc _
    simp [checkQualified]
  | cons c rest ih =>
    intro cache fl acc hreg
    simp only [checkQualified]
    by_cases hq : c.is_qualified
    · rw [if_pos hq]
      try simp only []
      cases hget : getA (QualifiedCounterValueSetKey.ofCounter c) cache with
      | some cvs =>
        simp only []
        by_cases hcv : cvs.value c.window now + delta ≤ c.max_value
        · rw [processCounter_pass load fl c _ delta hcv]
          simp only []
          exact ih _ _ _ (fun c2 hc2 => hreg c2 (List.mem_cons_of_mem _ hc2))
        · have hfail : c.max_value < cvs.value c.window now + delta := by omega
          rw [processCounter_fail load fl c _ delta hfail]
          simp only []
          cases load with
          | false => simp
          | true =>
            simp only [if_true]
            exact ih _ _ _ (fun c2 hc2 => hreg c2 (List.mem_cons_of_mem _ hc2))
      | none =>
        simp only []
        cases hws : getA (CounterValueSetKey.ofLimit c.limit) lw with
        | none =>
          have := hreg c (List.mem_cons_self c rest) hq
          rw [hws] at this
          simp at this
        | some ws =>
          simp only []
          by_cases hcv : (CounterValueSet.new ws).value c.window now + delta ≤ c.max_value
          · rw [processCounter_pass load fl c _ delta hcv]
            simp only []
            exact ih _ _ _ (fun c2 hc2 => hreg c2 (List.mem_cons_of_mem _ hc2))
          · have hfail : c.max_value <
                (CounterValueSet.new ws).value c.window now + delta := by omega
            rw [processCounter_fail load fl c _ delta hfail]
            simp only []
            cases load with
            | false => simp
            | true =>
              simp only [if_true]
              exact ih _ _ _ (fun c2 hc2 => hreg c2 (List.mem_cons_of_mem _ hc2))
    · rw [if_neg hq]
      exact ih _ _ _ (fun c2 hc2 => hreg c2 (List.mem_cons_of_mem _ hc2))

theorem updateScan_eq_slotScan {w delta now : Nat} :
    ∀ {vs : List CounterValue} {p : Nat × List CounterValue},
      updateScan w delta now vs = some p → p.2 = updateSlotScan delta w now vs := by
  intro vs
  induction vs with
  | nil =>
    intro p h
    simp [updateScan] at h
  | cons v rest ih =>
    intro p h
    by_cases h1 : v.seconds < w
    · rw [updateScan, if_pos h1] at h
      rw [updateSlotScan, if_pos h1]
      cases hrec : updateScan w delta now rest with
      | none =>
        rw [hrec] at h
        simp at h
      | some q =>
        rw [hrec] at h
        injection h with h2
        subst h2
        show v :: q.2 = v :: updateSlotScan delta w now rest
        rw [ih hrec]
    · by_cases h2 : v.seconds = w
      · rw [updateScan, if_neg h1, if_pos h2] at h
        rw [updateSlotScan, if_neg h1, if_pos h2]
        simp only [Option.some.injEq] at h
        subst h
        rfl
      · rw [updateScan, if_neg h1, if_neg h2] at h
        cases h

theorem slotSome_congr {κ : Type} [DecidableEq κ]
    {m1 m2 : List (κ × CounterValueSet)} {key : κ}
    (h : shapeAt m1 key = shapeAt m2 key) (w : Nat) :
    slotSome m1 key w ↔ slotSome m2 key w := by
  rw [slotSome, slotSome]
  cases h1 : getA key m1 with
  | none =>
    rw [shapeAt, shapeAt, h1] at h
    cases h2 : getA key m2 with
    | none => simp [h1]
    | some cvs2 =>
      rw [h2] at h
      simp at h
  | some cvs1 =>
    rw [shapeAt, shapeAt, h1] at h
    cases h2 : getA key m2 with
    | none =>
      rw [h2] at h
      simp at h
    | some cvs2 =>
      rw [h2] at h
      injection h with h3
      constructor
      · rintro ⟨cvs, hc, hslot⟩
        injection hc with hc
        subst hc
        refine ⟨cvs2, rfl, ?_⟩
        rw [CounterValueSet.expiring_value_of] at hslot ⊢
        rw [← evScan_isSome_congr h3]
        exact hslot
      · rintro ⟨cvs, hc, hslot⟩
        injection hc with hc
        subst hc
        refine ⟨cvs1, rfl, ?_⟩
        rw [CounterValueSet.expiring_value_of] at hslot ⊢
        rw [evScan_isSome_congr h3]
        exact hslot

theorem commitSimpleStep_shape (delta now : Nat)
    (m : List (CounterValueSetKey × CounterValueSet)) (k2 : CounterValueSetKey)
    (w2 : Nat) (key : CounterValueSetKey) :
    shapeAt (commitSimpleStep delta now m k2 w2) key = shapeAt m key := by
  rw [commitSimpleStep]
  cases hg : getA k2 m with
  | none => rfl
  | some cvs =>
    simp only []
    by_cases he : k2 = key
    · subst he
      rw [shapeAt, shapeAt, getA_setA_self, hg]
      simp [updateSlotScan_seconds]
    · rw [shapeAt, shapeAt, getA_setA_other (fun hh => he hh.symm)]

theorem commitSimpleStep_read_other (delta now : Nat)
    (m : List (CounterValueSetKey × CounterValueSet)) (k2 : CounterValueSetKey)
    (w2 : Nat) (key : CounterValueSetKey) (w now2 : Nat)
    (hne : (k2, w2) ≠ (key, w)) :
    readSlot (commitSimpleStep delta now m k2 w2) key w now2 = readSlot m key w now2 := by
  rw [commitSimpleStep]
  cases hg : getA k2 m with
  | none => rfl
  | some cvs =>
    simp only []
    by_cases he : k2 = key
    · subst he
      have hw : w2 ≠ w := fun hh => hne (by rw [hh])
      rw [readSlot, readSlot, getA_setA_self, hg]
      show CounterValueSet.value ⟨updateSlotScan delta w2 now cvs.values⟩ w now2 =
        CounterValueSet.value cvs w now2
      rw [CounterValueSet.value, CounterValueSet.value]
      exact updateSlotScan_value_other delta w2 now w now2 cvs.values (fun hh => hw hh.symm)
    · rw [readSlot, readSlot, getA_setA_other (fun hh => he hh.symm)]

theorem commitSimpleStep_read_hit (delta now : Nat)
    (m : List (CounterValueSetKey × CounterValueSet)) (key : CounterValueSetKey)
    (w : Nat) (hslot : slotSome m key w) (hw : 0 < w) :
    readSlot (commitSimpleStep delta now m key w) key w now =
      readSlot m key w now + delta := by
  obtain ⟨cvs, hg, hev⟩ := hslot
  rw [commitSimpleStep, hg]
  simp only []
  rw [readSlot, readSlot, getA_setA_self, hg]
  show CounterValueSet.value ⟨updateSlotScan delta w now cvs.values⟩ w now =
    CounterValueSet.value cvs w now + delta
  rw [CounterValueSet.value, CounterValueSet.value]
  exact updateSlotScan_value_same delta w now cvs.values hw hev

theorem commitSimple_spec (delta now : Nat) :
    ∀ (sl : List (CounterValueSetKey × Nat))
      (m : List (CounterValueSetKey × CounterValueSet)),
      (∀ key, shapeAt (commitSimple delta now sl m) key = shapeAt m key) ∧
      (∀ key w now2, (∀ p ∈ sl, p ≠ (key, w)) →
        readSlot (commitSimple delta now sl m) key w now2 = readSlot m key w now2) ∧
      (sl.Nodup → ∀ key w, (key, w) ∈ sl → 0 < w → slotSome m key w →
        readSlot (commitSimple delta now sl m) key w now =
          readSlot m key w now + delta) := by
  intro sl
  induction sl with
  | nil =>
    intro m
    refine ⟨fun _ => rfl, fun _ _ _ _ => rfl, ?_⟩
    intro _ key w hmem
    simp at hmem
  | cons p rest ih =>
    intro m
    obtain ⟨k2, w2⟩ := p
    obtain ⟨ihshape, ihother, ihhit⟩ := ih (commitSimpleStep delta now m k2 w2)
    refine ⟨?_, ?_, ?_⟩
    · intro key
      rw [commitSimple]
      rw [ihshape key, commitSimpleStep_shape]
    · intro key w now2 hne
      rw [commitSimple]
      rw [ihother key w now2 (fun q hq => hne q (List.mem_cons_of_mem _ hq))]
      exact commitSimpleStep_read_other delta now m k2 w2 key w now2
        (hne (k2, w2) (List.mem_cons_self _ _))
    · intro hnd key w hmem hw hslot
      rw [commitSimple]
      rw [List.nodup_cons] at hnd
      obtain ⟨hnotin, hnd2⟩ := hnd
      rcases List.mem_cons.mp hmem with hh | hh
      · injection hh with hh1 hh2
        subst hh1
        subst hh2
        rw [ihother key w now (fun q hq => by
          intro hcontra
          subst hcontra
          exact hnotin hq)]
        exact commitSimpleStep_read_hit delta now m key w hslot hw
      · have hne : (k2, w2) ≠ (key, w) := by
          intro hcontra
          rw [hcontra] at hnotin
          exact hnotin hh
        rw [ihhit hnd2 key w hh hw ((slotSome_congr
          (commitSimpleStep_shape delta now m k2 w2 key) w).mpr hslot)]
        rw [commitSimpleStep_read_other delta now m k2 w2 key w now hne]

theorem updateCVS_some_snd {s : CounterValueSet} {w delta now : Nat}
    {p : Nat × CounterValueSet} (h : s.update w delta now = some p) :
    p.2 = ⟨updateSlotScan delta w now s.values⟩ := by
  rw [CounterValueSet.update] at h
  cases hscan : updateScan w delta now s.values with
  | none =>
    rw [hscan] at h
    simp at h
  | some q =>
    rw [hscan] at h
    injection h with h2
    subst h2
    show (⟨q.2⟩ : CounterValueSet) = _
    rw [updateScan_eq_slotScan hscan]

theorem setA_update_shape {κ : Type} [DecidableEq κ]
    (m : List (κ × CounterValueSet)) {k2 : κ} {cvs : CounterValueSet}
    (hg : getA k2 m = some cvs) (delta w2 now : Nat) (key : κ) :
    shapeAt (setA k2 ⟨updateSlotScan delta w2 now cvs.values⟩ m) key = shapeAt m key := by
  by_cases he : k2 = key
  · subst he
    rw [shapeAt, shapeAt, getA_setA_self, hg]
    simp [updateSlotScan_seconds]
  · rw [shapeAt, shapeAt, getA_setA_other (fun hh => he hh.symm)]

theorem setA_update_read_other {κ : Type} [DecidableEq κ]
    (m : List (κ × CounterValueSet)) {k2 : κ} {cvs : CounterValueSet}
    (hg : getA k2 m = some cvs) (delta w2 now : Nat) (key : κ) (w now2 : Nat)
    (hne : (k2, w2) ≠ (key, w)) :
    readSlot (setA k2 ⟨updateSlotScan delta w2 now cvs.values⟩ m) key w now2 =
      readSlot m key w now2 := by
  by_cases he : k2 = key
  · subst he
    have hw : w2 ≠ w := fun hh => hne (by rw [hh])
    rw [readSlot, readSlot, getA_setA_self, hg]
    show CounterValueSet.value ⟨updateSlotScan delta w2 now cvs.values⟩ w now2 =
      CounterValueSet.value cvs w now2
    rw [CounterValueSet.value, CounterValueSet.value]
    exact updateSlotScan_value_other delta w2 now w now2 cvs.values (fun hh => hw hh.symm)
  · rw [readSlot, readSlot, getA_setA_other (fun hh => he hh.symm)]

theorem setA_update_read_hit {κ : Type} [DecidableEq κ]
    (m : List (κ × CounterValueSet)) {key : κ} {cvs : CounterValueSet} {w : Nat}
    (hg : getA key m = some cvs) (hev : (cvs.expiring_value_of w).isSome)
    (delta now : Nat) (hw : 0 < w) :
    readSlot (setA key ⟨updateSlotScan delta w now cvs.values⟩ m) key w now =
      readSlot m key w now + delta := by
  rw [readSlot, readSlot, getA_setA_self, hg]
  show CounterValueSet.value ⟨updateSlotScan delta w now cvs.values⟩ w now =
    CounterValueSet.value cvs w now + delta
  rw [CounterValueSet.value, CounterValueSet.value]
  exact updateSlotScan_value_same delta w now cvs.values hw hev

theorem commitQualifiedStep_some {delta now : Nat}
    {m : List (QualifiedCounterValueSetKey × CounterValueSet)}
    {qkey : QualifiedCounterValueSetKey} {w : Nat} (hslot : slotSome m qkey w) :
    ∃ cvs, getA qkey m = some cvs ∧
      commitQualifiedStep delta now m qkey w =
        some (setA qkey ⟨updateSlotScan delta w now cvs.values⟩ m) := by
  obtain ⟨cvs, hg, hev⟩ := hslot
  refine ⟨cvs, hg, ?_⟩
  rw [commitQualifiedStep, hg]
  simp only []
  cases hupd : cvs.update w delta now with
  | none =>
    rw [(updateCVS_none_iff cvs w delta now).mp hupd] at hev
    simp at hev
  | some p =>
    simp only []
    rw [updateCVS_some_snd hupd]

theorem commitQualified_spec (delta now : Nat) :
    ∀ (sl : List (QualifiedCounterValueSetKey × Nat))
      (m : List (QualifiedCounterValueSetKey × CounterValueSet)),
      (∀ p ∈ sl, slotSome m p.1 p.2) →
      ∃ m2, commitQualified delta now sl m = some m2 ∧
        (∀ key, shapeAt m2 key = shapeAt m key) ∧
        (∀ key w now2, (∀ p ∈ sl, p ≠ (key, w)) →
          readSlot m2 key w now2 = readSlot m key w now2) ∧
        (sl.Nodup → ∀ key w, (key, w) ∈ sl → 0 < w →
          readSlot m2 key w now = readSlot m key w now + delta) := by
  intro sl
  induction sl with
  | nil =>
    intro m _
    refine ⟨m, rfl, fun _ => rfl, fun _ _ _ _ => rfl, ?_⟩
    intro _ key w hmem
    simp at hmem
  | cons p rest ih =>
    intro m hav
    obtain ⟨k2, w2⟩ := p
    obtain ⟨cvs, hg, hstep⟩ :=
      @commitQualifiedStep_some delta now _ _ _
        (hav (k2, w2) (List.mem_cons_self _ _))
    set m1 := setA k2 ⟨updateSlotScan delta w2 now cvs.values⟩ m with hm1
    have hav2 : ∀ q ∈ rest, slotSome m1 q.1 q.2 := by
      intro q hq
      exact (slotSome_congr (setA_update_shape m hg delta w2 now q.1) q.2).mpr
        (hav q (List.mem_cons_of_mem _ hq))
    obtain ⟨m2, hm2, ihshape, ihother, ihhit⟩ := ih m1 hav2
    refine ⟨m2, ?_, ?_, ?_, ?_⟩
    · rw [commitQualified, hstep]
      exact hm2
    · intro key
      rw [ihshape key, hm1]
      exact setA_update_shape m hg delta w2 now key
    · intro key w now2 hne
      rw [ihother key w now2 (fun q hq => hne q (List.mem_cons_of_mem _ hq)), hm1]
      exact setA_update_read_other m hg delta w2 now key w now2
        (hne (k2, w2) (List.mem_cons_self _ _))
    · intro hnd key w hmem hw
      rw [List.nodup_cons] at hnd
      obtain ⟨hnotin, hnd2⟩ := hnd
      rcases List.mem_cons.mp hmem with hh | hh
      · injection hh with hh1 hh2
        subst hh1
        subst hh2
        rw [ihother key w now (fun q hq => by
          intro hcontra
          subst hcontra
          exact hnotin hq), hm1]
        obtain ⟨cvs2, hg2, hev2⟩ := hav (key, w) (List.mem_cons_self _ _)
        rw [hg] at hg2
        injection hg2 with hg3
        subst hg3
        exact setA_update_read_hit m hg hev2 delta now hw
      · have hne : (k2, w2) ≠ (key, w) := by
          intro hcontra
          rw [hcontra] at hnotin
          exact hnotin hh
        rw [ihhit hnd2 key w hh hw, hm1]
        rw [setA_update_read_other m hg delta w2 now key w now hne]

theorem find?_append_distrib {α : Type} (p : α → Bool) :
    ∀ (l1 l2 : List α), (l1 ++ l2).find? p =
      match l1.find? p with
      | some a => some a
      | none => l2.find? p := by
  intro l1 l2
  induction l1 with
  | nil => rfl
  | cons a l1 ih =>
    by_cases hp : p a
    · simp [List.find?_cons, hp]
    · have hp2 : p a = false := by simpa using hp
      simp [List.find?_cons, hp2, ih]

theorem find?_congr_mem {α : Type} {p q : α → Bool} :
    ∀ {l : List α}, (∀ x ∈ l, p x = q x) → l.find? p = l.find? q := by
  intro l
  induction l with
  | nil => intro _; rfl
  | cons a l ih =>
    intro h
    have ha := h a (List.mem_cons_self a l)
    rw [List.find?_cons, List.find?_cons, ha]
    cases q a
    · exact ih (fun x hx => h x (List.mem_cons_of_mem _ hx))
    · rfl

theorem readValue_eq_cacheRead {s : InMemoryStorage} {x : Counter}
    (hq : x.is_qualified = true) (now : Nat) :
    readValue s x now = cacheRead s.qualified_counters x now := by
  rw [readValue, if_pos hq, cacheRead]

theorem qualified_find?_conv (s : InMemoryStorage) (now delta : Nat)
    (batch : List Counter) :
    ((batch.filter (fun x => x.is_qualified)).find?
      (fun x => decide (x.max_value < cacheRead s.qualified_counters x now + delta))) =
    ((batch.filter (fun x => x.is_qualified)).find?
      (fun x => decide (x.max_value < readValue s x now + delta))) := by
  apply find?_congr_mem
  intro x hx
  have hq : x.is_qualified = true := by
    have := List.mem_filter.mp hx
    simpa using this.2
  rw [readValue_eq_cacheRead hq]

/-- C2 counterexample: in the batch [qualified counter, simple counter], both
over their max-0 limits, the first counter of the caller's batch (the
qualified one, named "qual") is already over its limit, yet `check_and_update`
reports `Limited (some "simple")`: the simple counters are processed first. -/
theorem C2_counterexample :
    (exStateMixed.check_and_update [exCounterQual0, exCounterSimple0] 1 false 0).map
        (fun r => r.1) = some (Authorization.Limited (some "simple")) ∧
    exCounterQual0.max_value < readValue exStateMixed exCounterQual0 0 + 1 ∧
    exCounterQual0.limit.name = some "qual" ∧
    ([exCounterQual0, exCounterSimple0].head? = some exCounterQual0) := by
  refine ⟨by decide, by decide, by decide, by decide⟩

/-- C2 amended: whenever `check_and_update` returns `Limited(n)`, `n` is the
`Limit.name` of the first counter, in the order the implementation processes
the batch (all simple counters in batch order, then all qualified counters in
batch order), whose current value plus delta exceeds its `max_value`; `n` is
`None` when that limit has no name. -/
theorem C2_limited_names_first_failing (s : InMemoryStorage) (batch : List Counter)
    (delta now : Nat) (load : Bool) (n : Option String) (s2 : InMemoryStorage)
    (h : s.check_and_update batch delta load now = some (Authorization.Limited n, s2)) :
    ∃ c, firstFailing s now delta (processingOrder batch) = some c ∧
      n = c.limit.name := by
  rw [InMemoryStorage.check_and_update] at h
  cases hcs : checkSimple s delta now load batch none [] with
  | none =>
    rw [hcs] at h
    simp at h
  | some r =>
    rw [hcs] at h
    cases r with
    | error limited =>
      simp only [Option.some.injEq, Prod.mk.injEq] at h
      obtain ⟨hlim, _⟩ := h
      obtain ⟨hload, c0, hff, ha⟩ := checkSimple_err_inv hcs
      refine ⟨c0, ?_, ?_⟩
      · rw [processingOrder, firstFailing, find?_append_distrib]
        rw [firstFailing] at hff
        rw [hff]
      · rw [ha] at hlim
        injection hlim.symm
    | ok pr =>
      obtain ⟨fl, simpleAcc⟩ := pr
      simp only [] at h
      cases hcq : checkQualified s.limit_windows delta now load batch
          s.qualified_counters fl [] with
      | none =>
        rw [hcq] at h
        simp at h
      | some r2 =>
        rw [hcq] at h
        cases r2 with
        | error pr2 =>
          obtain ⟨limited, cache⟩ := pr2
          simp only [Option.some.injEq, Prod.mk.injEq] at h
          obtain ⟨hlim, _⟩ := h
          obtain ⟨hload, _, c0, hff, ha⟩ := checkQualified_err_inv hcq
          obtain ⟨_, _, _, hslf⟩ := checkSimple_ok_inv hcs
          obtain ⟨_, hffS⟩ := hslf hload
          refine ⟨c0, ?_, ?_⟩
          · rw [processingOrder, firstFailing, find?_append_distrib]
            rw [firstFailing] at hffS
            rw [hffS]
            simp only []
            rw [← qualified_find?_conv s now delta batch]
            exact hff
          · rw [ha] at hlim
            injection hlim.symm
        | ok pr2 =>
          obtain ⟨fl2, cache, qualAcc⟩ := pr2
          simp only [] at h
          cases hfl2 : fl2 with
          | none =>
            rw [hfl2] at h
            simp only [] at h
            cases hcm : commitQualified delta now qualAcc cache with
            | none =>
              rw [hcm] at h
              simp at h
            | some cache2 =>
              rw [hcm] at h
              simp at h
          | some limited =>
            rw [hfl2] at h
            simp only [Option.some.injEq, Prod.mk.injEq] at h
            obtain ⟨hlim, _⟩ := h
            obtain ⟨_, _, _, hqlt, hqlf⟩ := checkQualified_ok_inv hcq
            obtain ⟨_, _, hslt, hslf⟩ := checkSimple_ok_inv hcs
            cases load with
            | false =>
              obtain ⟨hfl, _⟩ := hslf rfl
              obtain ⟨hfl2b, _⟩ := hqlf rfl
              rw [hfl2, hfl] at hfl2b
              cases hfl2b
            | true =>
              have hfl := hslt rfl
              have hfl2b := hqlt rfl
              rw [hfl2] at hfl2b
              cases hffS : firstFailing s now delta
                  (batch.filter (fun x => !x.is_qualified)) with
              | some c0 =>
                rw [hffS] at hfl
                have hfl3 : fl = some (Authorization.Limited c0.limit.name) := by
                  rw [hfl]
                  rfl
                rw [hfl3] at hfl2b
                rw [flOr_some_left] at hfl2b
                injection hfl2b with hlim2
                refine ⟨c0, ?_, ?_⟩
                · rw [processingOrder, firstFailing, find?_append_distrib]
                  rw [firstFailing] at hffS
                  rw [hffS]
                · have h5 := hlim2.symm.trans hlim
                  injection h5 with h6
                  exact h6.symm
              | none =>
                rw [hffS] at hfl
                have hfl3 : fl = none := by
                  rw [hfl]
                  rfl
                rw [hfl3] at hfl2b
                have hfl4 : some limited = ((batch.filter
                    (fun x => x.is_qualified)).find? (fun x => decide
                    (x.max_value < cacheRead s.qualified_counters x now + delta))).map
                  (fun x => Authorization.Limited x.limit.name) := hfl2b
                cases hffQ : (batch.filter (fun x => x.is_qualified)).find?
                    (fun x => decide (x.max_value <
                      cacheRead s.qualified_counters x now + delta)) with
                | none =>
                  rw [hffQ] at hfl4
                  cases hfl4
                | some c0 =>
                  rw [hffQ] at hfl4
                  injection hfl4 with hlim2
                  refine ⟨c0, ?_, ?_⟩
                  · rw [processingOrder, firstFailing, find?_append_distrib]
                    rw [firstFailing] at hffS
                    rw [hffS]
                    simp only []
                    rw [← qualified_find?_conv s now delta batch]
                    exact hffQ
                  · have h5 := hlim2.symm.trans hlim
                    injection h5 with h6
                    exact h6.symm

/-- C2 witness: the amended theorem applied to the mixed batch: the first
failing counter in processing order is the simple one, named "simple". -/
theorem C2_limited_names_first_failing_witness :
    ∃ c, firstFailing exStateMixed 0 1
        (processingOrder [exCounterQual0, exCounterSimple0]) = some c ∧
      (some "simple" : Option String) = c.limit.name :=
  C2_limited_names_first_failing exStateMixed [exCounterQual0, exCounterSimple0]
    1 0 false (some "simple") exMixedResult.2 (by decide)

theorem readValue_readSlot_simple {s : InMemoryStorage} {c : Counter}
    (hq : c.is_qualified = false) (now : Nat) :
    readValue s c now = readSlot s.counters (CounterValueSetKey.ofLimit c.limit)
      c.window now := by
  simp [readValue, readSlot, hq]

theorem readValue_readSlot_qualified {s : InMemoryStorage} {c : Counter}
    (hq : c.is_qualified = true) (now : Nat) :
    readValue s c now = readSlot s.qualified_counters
      (QualifiedCounterValueSetKey.ofCounter c) c.window now := by
  simp [readValue, readSlot, hq]

theorem find?_ne_none_of_mem {α : Type} {p : α → Bool} {l : List α} {x : α}
    (hx : x ∈ l) (hp : p x = true) : l.find? p ≠ none := by
  intro hnone
  have := List.find?_eq_none.mp hnone x hx
  rw [hp] at this
  exact this rfl

theorem simpleSlots_nodup {batch : List Counter}
    (h : batch.Pairwise (fun a b => slotOf a ≠ slotOf b)) :
    (simpleSlots batch).Nodup := by
  have h2 := h.filter (fun c => !c.is_qualified)
  have h3 : (batch.filter (fun c => !c.is_qualified)).Pairwise
      (fun a b => (CounterValueSetKey.ofLimit a.limit, a.window) ≠
        (CounterValueSetKey.ofLimit b.limit, b.window)) := by
    refine List.Pairwise.imp_of_mem ?_ h2
    intro a b ha hb hne
    have hqa : a.is_qualified = false := by simpa using List.of_mem_filter ha
    have hqb : b.is_qualified = false := by simpa using List.of_mem_filter hb
    intro hcontra
    apply hne
    simp only [slotOf, hqa, Bool.false_eq_true, if_false, hqb]
    exact congrArg Sum.inl hcontra
  rw [simpleSlots]
  exact List.Pairwise.map _ (fun a b hr => hr) h3

theorem qualSlots_nodup {batch : List Counter}
    (h : batch.Pairwise (fun a b => slotOf a ≠ slotOf b)) :
    (qualSlots batch).Nodup := by
  have h2 := h.filter (fun c => c.is_qualified)
  have h3 : (batch.filter (fun c => c.is_qualified)).Pairwise
      (fun a b => (QualifiedCounterValueSetKey.ofCounter a, a.window) ≠
        (QualifiedCounterValueSetKey.ofCounter b, b.window)) := by
    refine List.Pairwise.imp_of_mem ?_ h2
    intro a b ha hb hne
    have hqa : a.is_qualified = true := by simpa using List.of_mem_filter ha
    have hqb : b.is_qualified = true := by simpa using List.of_mem_filter hb
    intro hcontra
    apply hne
    simp only [slotOf, hqa, if_true, hqb]
    exact congrArg Sum.inr hcontra
  rw [qualSlots]
  exact List.Pairwise.map _ (fun a b hr => hr) h3

theorem registered_simple {s : InMemoryStorage} {c : Counter}
    (h : registered s c) (hq : c.is_qualified = false) : simpleRegistered s c := by
  rw [registered, hq] at h
  simpa using h

theorem registered_qualified {s : InMemoryStorage} {c : Counter}
    (h : registered s c) (hq : c.is_qualified = true) : qualifiedRegistered s c := by
  rw [registered, hq] at h
  simpa using h

theorem readValue_cache_change {s : InMemoryStorage}
    {cache : List (QualifiedCounterValueSetKey × CounterValueSet)}
    (hext : cacheExt s.limit_windows s.qualified_counters cache) (x : Counter)
    (now2 : Nat) :
    readValue { s with qualified_counters := cache } x now2 = readValue s x now2 := by
  cases hq : x.is_qualified with
  | true =>
    rw [readValue_eq_cacheRead hq, readValue_eq_cacheRead hq]
    exact cacheExt_read hext x now2
  | false =>
    simp [readValue, hq]

/-- C1 amended: for every batch of counters occupying pairwise distinct
storage slots (no aliasing), each registered via `add_counter` and with a
positive window: if every counter's current value plus `delta` is at most its
maximum, `check_and_update` returns `Ok` and every counter's window value is
incremented by exactly `delta`; if any counter's current value plus `delta`
exceeds its maximum, it returns `Limited` and the value every counter reads is
unchanged — regardless of the `load_counters` flag. -/
theorem C1_check_and_update_all_or_nothing (s : InMemoryStorage)
    (batch : List Counter) (delta now : Nat) (load : Bool)
    (hreg : ∀ c ∈ batch, registered s c)
    (hwin : ∀ c ∈ batch, 0 < c.window)
    (hdistinct : batch.Pairwise (fun a b => slotOf a ≠ slotOf b)) :
    ((∀ c ∈ batch, readValue s c now + delta ≤ c.max_value) →
      ∃ s2, s.check_and_update batch delta load now = some (Authorization.Ok, s2) ∧
        ∀ c ∈ batch, readValue s2 c now = readValue s c now + delta) ∧
    ((∃ c ∈ batch, c.max_value < readValue s c now + delta) →
      ∃ n s2, s.check_and_update batch delta load now =
          some (Authorization.Limited n, s2) ∧
        ∀ x now2, readValue s2 x now2 = readValue s x now2) := by
  have hregS : ∀ c ∈ batch, c.is_qualified = false → simpleRegistered s c :=
    fun c hc hq => registered_simple (hreg c hc) hq
  have hregQ : ∀ c ∈ batch, c.is_qualified = true → qualifiedRegistered s c :=
    fun c hc hq => registered_qualified (hreg c hc) hq
  have hlw : ∀ c ∈ batch, c.is_qualified = true →
      (getA (CounterValueSetKey.ofLimit c.limit) s.limit_windows).isSome := by
    intro c hc hq
    obtain ⟨⟨ws, hws, _⟩, _⟩ := hregQ c hc hq
    rw [hws]
    rfl
  have htotS := @checkSimple_total s delta now load batch none [] hregS
  constructor
  · intro hpass
    obtain ⟨rS, hcs⟩ := Option.isSome_iff_exists.mp htotS
    cases rS with
    | error a =>
      obtain ⟨_, c0, hff, _⟩ := checkSimple_err_inv hcs
      rw [firstFailing] at hff
      have hc0mem := List.mem_of_find?_eq_some hff
      have hc0pred := List.find?_some hff
      have hc0batch : c0 ∈ batch := (List.mem_filter.mp hc0mem).1
      have := hpass c0 hc0batch
      simp only [decide_eq_true_eq] at hc0pred
      omega
    | ok prS =>
      obtain ⟨fl, simpleAcc⟩ := prS
      obtain ⟨haccS, _, hslt, hslf⟩ := checkSimple_ok_inv hcs
      have hffSnone : firstFailing s now delta
          (batch.filter (fun x => !x.is_qualified)) = none := by
        rw [firstFailing]
        apply List.find?_eq_none.mpr
        intro x hx
        have hxb : x ∈ batch := (List.mem_filter.mp hx).1
        have := hpass x hxb
        simp only [decide_eq_true_eq]
        omega
      have hfl : fl = none := by
        cases load with
        | true =>
          rw [hslt rfl, hffSnone]
          rfl
        | false => exact (hslf rfl).1
      obtain ⟨rQ, hcq⟩ := Option.isSome_iff_exists.mp
        (@checkQualified_total s.limit_windows delta now load batch
          s.qualified_counters fl [] hlw)
      cases rQ with
      | error prQ =>
        obtain ⟨a2, cache⟩ := prQ
        obtain ⟨_, _, c0, hff, _⟩ := checkQualified_err_inv hcq
        have hc0mem := List.mem_of_find?_eq_some hff
        have hc0pred := List.find?_some hff
        have hc0batch : c0 ∈ batch := (List.mem_filter.mp hc0mem).1
        have hc0q : c0.is_qualified = true := by
          simpa using (List.mem_filter.mp hc0mem).2
        have := hpass c0 hc0batch
        rw [readValue_eq_cacheRead hc0q] at this
        simp only [decide_eq_true_eq] at hc0pred
        omega
      | ok prQ =>
        obtain ⟨fl2, cache, qualAcc⟩ := prQ
        obtain ⟨haccQ, hext, hpres, hqlt, hqlf⟩ := checkQualified_ok_inv hcq
        have hffQnone : (batch.filter (fun x => x.is_qualified)).find?
            (fun x => decide (x.max_value <
              cacheRead s.qualified_counters x now + delta)) = none := by
          apply List.find?_eq_none.mpr
          intro x hx
          have hxb : x ∈ batch := (List.mem_filter.mp hx).1
          have hxq : x.is_qualified = true := by
            simpa using (List.mem_filter.mp hx).2
          have := hpass x hxb
          rw [readValue_eq_cacheRead hxq] at this
          simp only [decide_eq_true_eq]
          omega
        have hfl2v : fl2 = none := by
          cases load with
          | true =>
            rw [hqlt rfl, hffQnone, hfl]
            rfl
          | false =>
            rw [(hqlf rfl).1, hfl]
        have hsimpleAcc : simpleAcc = simpleSlots batch := by simpa using haccS
        have hqualAcc : qualAcc = qualSlots batch := by simpa using haccQ
        have hav : ∀ p ∈ qualAcc, slotSome cache p.1 p.2 := by
          rw [hqualAcc, qualSlots]
          intro p hp
          obtain ⟨c, hcf, hpc⟩ := List.mem_map.mp hp
          subst hpc
          have hcb : c ∈ batch := (List.mem_filter.mp hcf).1
          have hcq2 : c.is_qualified = true := by
            simpa using (List.mem_filter.mp hcf).2
          obtain ⟨hws, horig⟩ := hregQ c hcb hcq2
          exact slot_from_ext hext hws horig (hpres c hcb hcq2)
        obtain ⟨cache2, hcm, hshapeQ, hotherQ, hhitQ⟩ :=
          commitQualified_spec delta now qualAcc cache hav
        refine ⟨⟨commitSimple delta now simpleAcc s.counters, cache2,
          s.limit_windows⟩, ?_, ?_⟩
        · rw [InMemoryStorage.check_and_update, hcs]
          simp only []
          rw [hcq]
          simp only []
          rw [hfl2v]
          simp only []
          rw [hcm]
        · intro c hc
          obtain ⟨hshapeS, hotherS, hhitS⟩ :=
            commitSimple_spec delta now simpleAcc s.counters
          cases hq : c.is_qualified with
          | false =>
            rw [readValue_readSlot_simple hq now, readValue_readSlot_simple hq now]
            show readSlot (commitSimple delta now simpleAcc s.counters)
              (CounterValueSetKey.ofLimit c.limit) c.window now =
              readSlot s.counters (CounterValueSetKey.ofLimit c.limit) c.window now + delta
            have hnd : simpleAcc.Nodup := by
              rw [hsimpleAcc]
              exact simpleSlots_nodup hdistinct
            have hmem : (CounterValueSetKey.ofLimit c.limit, c.window) ∈ simpleAcc := by
              rw [hsimpleAcc, simpleSlots]
              exact List.mem_map_of_mem _ (List.mem_filter.mpr ⟨hc, by simp [hq]⟩)
            exact hhitS hnd _ _ hmem (hwin c hc) (hregS c hc hq)
          | true =>
            rw [readValue_readSlot_qualified hq now]
            show readSlot cache2 (QualifiedCounterValueSetKey.ofCounter c)
              c.window now = readValue s c now + delta
            have hnd : qualAcc.Nodup := by
              rw [hqualAcc]
              exact qualSlots_nodup hdistinct
            have hmem : (QualifiedCounterValueSetKey.ofCounter c, c.window) ∈ qualAcc := by
              rw [hqualAcc, qualSlots]
              exact List.mem_map_of_mem _ (List.mem_filter.mpr ⟨hc, by simp [hq]⟩)
            rw [hhitQ hnd _ _ hmem (hwin c hc)]
            have h1 : readSlot cache (QualifiedCounterValueSetKey.ofCounter c)
                c.window now = cacheRead cache c now := rfl
            rw [h1, cacheExt_read hext, ← readValue_eq_cacheRead hq]
  · rintro ⟨cF, hcF, hfail⟩
    obtain ⟨rS, hcs⟩ := Option.isSome_iff_exists.mp htotS
    cases rS with
    | error a =>
      obtain ⟨hload, c0, hff, ha⟩ := checkSimple_err_inv hcs
      refine ⟨c0.limit.name, s, ?_, fun x now2 => rfl⟩
      rw [InMemoryStorage.check_and_update, hcs]
      simp only []
      rw [ha]
    | ok prS =>
      obtain ⟨fl, simpleAcc⟩ := prS
      obtain ⟨haccS, _, hslt, hslf⟩ := checkSimple_ok_inv hcs
      obtain ⟨rQ, hcq⟩ := Option.isSome_iff_exists.mp
        (@checkQualified_total s.limit_windows delta now load batch
          s.qualified_counters fl [] hlw)
      cases rQ with
      | error prQ =>
        obtain ⟨a2, cache⟩ := prQ
        obtain ⟨hload, hext, c0, hff, ha⟩ := checkQualified_err_inv hcq
        refine ⟨c0.limit.name, { s with qualified_counters := cache }, ?_, ?_⟩
        · rw [InMemoryStorage.check_and_update, hcs]
          simp only []
          rw [hcq]
          simp only []
          rw [ha]
        · intro x now2
          exact readValue_cache_change hext x now2
      | ok prQ =>
        obtain ⟨fl2, cache, qualAcc⟩ := prQ
        obtain ⟨haccQ, hext, hpres, hqlt, hqlf⟩ := checkQualified_ok_inv hcq
        have hfl2some : ∃ nm, fl2 = some (Authorization.Limited nm) := by
          cases load with
          | false =>
            exfalso
            obtain ⟨hfl, hffS⟩ := hslf rfl
            obtain ⟨hfl2b, hffQ⟩ := hqlf rfl
            cases hqF : cF.is_qualified with
            | false =>
              rw [firstFailing] at hffS
              exact find?_ne_none_of_mem
                (List.mem_filter.mpr ⟨hcF, by simp [hqF]⟩)
                (by simp only [decide_eq_true_eq]; omega) hffS
            | true =>
              refine find?_ne_none_of_mem
                (List.mem_filter.mpr ⟨hcF, by simp [hqF]⟩) ?_ hffQ
              rw [readValue_eq_cacheRead hqF] at hfail
              simp only [decide_eq_true_eq]
              omega
          | true =>
            have hfl := hslt rfl
            have hfl2b := hqlt rfl
            cases hffS : firstFailing s now delta
                (batch.filter (fun x => !x.is_qualified)) with
            | some c0 =>
              rw [hffS] at hfl
              refine ⟨c0.limit.name, ?_⟩
              rw [hfl2b, hfl]
              rfl
            | none =>
              rw [hffS] at hfl
              have hflnone : fl = none := by
                rw [hfl]
                rfl
              cases hqF : cF.is_qualified with
              | false =>
                exfalso
                rw [firstFailing] at hffS
                exact find?_ne_none_of_mem
                  (List.mem_filter.mpr ⟨hcF, by simp [hqF]⟩)
                  (by simp only [decide_eq_true_eq]; omega) hffS
              | true =>
                cases hffQ : (batch.filter (fun x => x.is_qualified)).find?
                    (fun x => decide (x.max_value <
                      cacheRead s.qualified_counters x now + delta)) with
                | none =>
                  exfalso
                  refine find?_ne_none_of_mem
                    (List.mem_filter.mpr ⟨hcF, by simp [hqF]⟩) ?_ hffQ
                  rw [readValue_eq_cacheRead hqF] at hfail
                  simp only [decide_eq_true_eq]
                  omega
                | some c0 =>
                  refine ⟨c0.limit.name, ?_⟩
                  rw [hfl2b, hffQ, hflnone]
                  rfl
        obtain ⟨nm, hfl2v⟩ := hfl2some
        refine ⟨nm, { s with qualified_counters := cache }, ?_, ?_⟩
        · rw [InMemoryStorage.check_and_update, hcs]
          simp only []
          rw [hcq]
          simp only []
          rw [hfl2v]
        · intro x now2
          exact readValue_cache_change hext x now2

/-- C1 counterexample: in the batch [c, c] naming the same max-10 counter
twice, every counter in the batch can absorb the delta of 1 (0 + 1 ≤ 10) and
the result is Ok, yet the counter's window value ends at 2, not incremented by
the delta of 1 — the claim over arbitrary batches fails for aliased slots. -/
theorem C1_counterexample :
    (∀ c ∈ [exCounterSimple10, exCounterSimple10],
      readValue exStateTen c 0 + 1 ≤ c.max_value) ∧
    ∃ s2, exStateTen.check_and_update [exCounterSimple10, exCounterSimple10]
        1 false 0 = some (Authorization.Ok, s2) ∧
      readValue s2 exCounterSimple10 0 = 2 ∧
      readValue exStateTen exCounterSimple10 0 + 1 = 1 := by
  refine ⟨by decide, ⟨⟨[(CounterValueSetKey.Anonymous ⟨"api", 60, [], []⟩,
    ⟨[⟨60, ⟨2, 60000000000⟩⟩]⟩)], [], []⟩, by decide, by decide, by decide⟩⟩

/-- C1 witness: the amended theorem applied to a single registered max-10
counter: the decision is Ok and the counter is incremented by the delta. -/
theorem C1_check_and_update_all_or_nothing_witness :
    ∃ s2, exStateTen.check_and_update [exCounterSimple10] 1 false 0 =
        some (Authorization.Ok, s2) ∧
      ∀ c ∈ [exCounterSimple10], readValue s2 c 0 = readValue exStateTen c 0 + 1 :=
  (C1_check_and_update_all_or_nothing exStateTen [exCounterSimple10] 1 0 false
    (by
      intro c hc
      rw [List.mem_singleton] at hc
      subst hc
      exact ⟨⟨[⟨60, ⟨0, 0⟩⟩]⟩, rfl, rfl⟩)
    (by decide)
    (by simp)).1 (by decide)

end Limitador
